import Mathlib

/-!
Verification of the brainfuck toolchain core (`src/brainfuck/vm/program.rs`,
`src/brainfuck/vm/vm.rs`, `src/brainfuck/jit/ast.rs`) as a shallow embedding.

The repository's `vm/opcode.rs` and `io/base.rs` are not present in the source
tree; the `OpCode` type and the `Stdin`/`Stdout` capabilities are modelled from
the specification (spec sections 3, 4.1 and 6), which pins them down completely.
Everything else is translated directly from the Rust source.
-/

set_option maxRecDepth 200000

namespace BF

/-- Modelled from the spec: `OpCode` (file `vm/opcode.rs` is absent from the
source tree).  Spec section 3: a tagged value with variants `IncDataPtr(n)`,
`DecDataPtr(n)`, `IncValue(n)`, `DecValue(n)`, `Input`, `Output`, `LoopStart`,
`LoopEnd`, where `n` is the fold count. -/
inductive OpCode where
  | IncDataPtr : Nat → OpCode
  | DecDataPtr : Nat → OpCode
  | IncValue : Nat → OpCode
  | DecValue : Nat → OpCode
  | Input : OpCode
  | Output : OpCode
  | LoopStart : OpCode
  | LoopEnd : OpCode
deriving DecidableEq, Repr

namespace OpCode

/-- Modelled from the spec: `OpCode::convert` (file `vm/opcode.rs` is absent).
Spec section 4.1 step 1: filter the source, keeping only `> < + - , . [ ]`;
each surviving character becomes an opcode with count 1. -/
def convert (c : Char) : Option OpCode :=
  if c = '>' then some (IncDataPtr 1)
  else if c = '<' then some (DecDataPtr 1)
  else if c = '+' then some (IncValue 1)
  else if c = '-' then some (DecValue 1)
  else if c = ',' then some Input
  else if c = '.' then some Output
  else if c = '[' then some LoopStart
  else if c = ']' then some LoopEnd
  else none

/-- Modelled from the spec: `OpCode::count` (file `vm/opcode.rs` is absent).
Spec section 3: `count()` returns `n` for the four counted variants and `1`
for the rest. -/
def count : OpCode → Nat
  | IncDataPtr n => n
  | DecDataPtr n => n
  | IncValue n => n
  | DecValue n => n
  | _ => 1

end OpCode

/-- `ProgramError` from `vm/program.rs`. -/
inductive ProgramError where
  | MissingBracket : Nat → ProgramError
deriving DecidableEq, Repr

/-- `Step` from `vm/program.rs`: the opcode at an instruction pointer together
with the candidate successor pointers. -/
structure Step where
  opcode : OpCode
  then_ip : Option Nat
  else_ip : Option Nat
deriving DecidableEq, Repr

/-- `Program` from `vm/program.rs`.  The Rust `HashMap<usize, usize>` jump
table is embedded as an association list with distinct keys; `List.lookup`
plays the role of `HashMap::get`. -/
structure Program where
  code : List OpCode
  jump_table : List (Nat × Nat)
deriving DecidableEq, Repr

/-- Tokenisation step of `Program::new`:
`program_string.chars().filter_map(OpCode::convert).collect()`. -/
def tokenize (s : List Char) : List OpCode := s.filterMap OpCode.convert

/-- One step of the RLE fold in `Program::new`.  The Rust accumulator is a
`Vec` treated as a stack (push/pop at the end); it is embedded with the stack
top at the head of the list, so the accumulator is reversed at the end. -/
def rleStep (acc : List OpCode) (current : OpCode) : List OpCode :=
  match acc, current with
  | OpCode.DecDataPtr count :: rest, OpCode.DecDataPtr 1 =>
      OpCode.DecDataPtr (count + 1) :: rest
  | OpCode.IncDataPtr count :: rest, OpCode.IncDataPtr 1 =>
      OpCode.IncDataPtr (count + 1) :: rest
  | OpCode.DecValue count :: rest, OpCode.DecValue 1 =>
      OpCode.DecValue (count + 1) :: rest
  | OpCode.IncValue count :: rest, OpCode.IncValue 1 =>
      OpCode.IncValue (count + 1) :: rest
  | _, _ => current :: acc

/-- The RLE fold of `Program::new` (`code.iter().fold(vec![], ...)`). -/
def rleFold (code : List OpCode) : List OpCode :=
  (code.foldl rleStep []).reverse

/-- The bracket-matching scan of `Program::new`: a linear walk over the
enumerated opcodes keeping a stack of open-bracket indices (head = stack
top, matching the Rust `Vec` used as a stack) and accumulating the jump
table entries (both directions per matched pair, as in the Rust code). -/
def scanB : List OpCode → Nat → List Nat → List (Nat × Nat) →
    Except ProgramError (List Nat × List (Nat × Nat))
  | [], _, stack, table => Except.ok (stack, table)
  | op :: rest, index, stack, table =>
    match op with
    | OpCode.LoopStart => scanB rest (index + 1) (index :: stack) table
    | OpCode.LoopEnd =>
      match stack with
      | [] => Except.error (ProgramError.MissingBracket index)
      | start :: stack' =>
          scanB rest (index + 1) stack' ((start, index) :: (index, start) :: table)
    | _ => scanB rest (index + 1) stack table

/-- The opcode stream `Program::new` builds before bracket matching
(`let mut code` after the optional RLE fold). -/
def codeOf (program_string : List Char) (rle : Bool) : List OpCode :=
  if rle then rleFold (tokenize program_string) else tokenize program_string

/-- `Program::new` from `vm/program.rs`: tokenise, optionally RLE-fold,
match brackets.  A leftover open bracket is reported from the top of the
stack, exactly as `stack.pop()` does in the source. -/
def Program.new (program_string : List Char) (rle : Bool) :
    Except ProgramError Program :=
  match scanB (codeOf program_string rle) 0 [] [] with
  | Except.error e => Except.error e
  | Except.ok (stack, table) =>
    match stack with
    | [] => Except.ok { code := codeOf program_string rle, jump_table := table }
    | index :: _ => Except.error (ProgramError.MissingBracket index)

/-- `Program::get_step` from `vm/program.rs`. -/
def Program.get_step (p : Program) (ip : Nat) : Option Step :=
  match p.code.get? ip with
  | none => none
  | some opcode =>
    let next_ip := if ip + 1 < p.code.length then some (ip + 1) else none
    match opcode with
    | OpCode.LoopStart =>
      match p.jump_table.lookup ip with
      | none => none
      | some loop_end_index =>
          some ⟨opcode, next_ip,
            if loop_end_index + 1 < p.code.length then some (loop_end_index + 1)
            else none⟩
    | OpCode.LoopEnd =>
      match p.jump_table.lookup ip with
      | none => none
      | some loop_start_index => some ⟨opcode, some (loop_start_index + 1), next_ip⟩
    | _ => some ⟨opcode, next_ip, none⟩

/-- `EvalError` from `vm/vm.rs`.  (`io::Error` carries no information the
core inspects, so `IOError` is a bare constructor.) -/
inductive EvalError where
  | ProgramError : ProgramError → EvalError
  | MemoryOutOfBounds : EvalError
  | InvalidInstructionPointer : EvalError
  | IOError : EvalError
deriving DecidableEq, Repr

/-- Modelled from the spec: one response of the `Stdin` capability (trait file
`io/base.rs` is absent).  Spec section 6: `read() → Result<Option<byte>,
IoError>`, `None` meaning EOF.  A capability is embedded as the list of
responses it will give to successive `read` calls (an exhausted list keeps
answering EOF, like an exhausted iterator). -/
inductive InResp where
  | ioerr : InResp
  | eof : InResp
  | chr : Char → InResp
deriving DecidableEq, Repr

/-- VM state from `vm/vm.rs` (`ip`, `data_ptr`, `memory`, `program`, and the
two I/O capabilities; `stdout` is the in-memory `StdoutString` accumulator,
`stdin` the remaining input responses).  Cells are `u8`, embedded as `Nat`
kept below 256 by taking `% 256` wherever the Rust code performs a `u8`
operation. -/
structure VMState where
  ip : Nat
  data_ptr : Nat
  memory : List Nat
  program : Program
  stdin : List InResp
  stdout : List Char
deriving DecidableEq, Repr

/-- `VM::new` from `vm/vm.rs`: fresh state over a constructed program with a
zero-initialised tape. -/
def VMState.init (p : Program) (input : List InResp) (memory_size : Nat) : VMState :=
  { ip := 0, data_ptr := 0, memory := List.replicate memory_size 0,
    program := p, stdin := input, stdout := [] }

/-- `VM::execute_step` from `vm/vm.rs`.  The Rust method mutates `&mut self`
and returns `Result<bool, EvalError>`; the embedding returns the updated
state alongside the flag, and on error returns the state as the mutation
left it (errors in the source return before any field is written, except
that a failing `stdin.read()` has already consumed from the capability).
The tail of the method,
`if let Some(next_ip) = next_ip_option { self.ip = next_ip } else { return Ok(true) }`,
is split out as `advance`. -/
def advance (next_ip_option : Option Nat) (s' : VMState) :
    Except (EvalError × VMState) (Bool × VMState) :=
  match next_ip_option with
  | some next_ip => Except.ok (false, { s' with ip := next_ip })
  | none => Except.ok (true, s')

def execute_step (s : VMState) : Except (EvalError × VMState) (Bool × VMState) :=
  match s.program.get_step s.ip with
  | none => Except.ok (true, s)
  | some step =>
    match step.opcode with
    | OpCode.DecDataPtr count =>
        if s.data_ptr < count then Except.error (EvalError.MemoryOutOfBounds, s)
        else advance step.then_ip { s with data_ptr := s.data_ptr - count }
    | OpCode.IncDataPtr count =>
        if s.data_ptr + count ≥ s.memory.length then
          Except.error (EvalError.InvalidInstructionPointer, s)
        else advance step.then_ip { s with data_ptr := s.data_ptr + count }
    | OpCode.DecValue count =>
        let c := s.memory.getD s.data_ptr 0
        advance step.then_ip
          { s with memory := s.memory.set s.data_ptr ((c + (256 - count % 256)) % 256) }
    | OpCode.IncValue count =>
        let c := s.memory.getD s.data_ptr 0
        advance step.then_ip
          { s with memory := s.memory.set s.data_ptr ((c + count % 256) % 256) }
    | OpCode.Input =>
        match s.stdin with
        | InResp.ioerr :: rest =>
            Except.error (EvalError.IOError, { s with stdin := rest })
        | InResp.eof :: rest => advance step.then_ip { s with stdin := rest }
        | InResp.chr c :: rest =>
            advance step.then_ip
              { s with stdin := rest,
                       memory := s.memory.set s.data_ptr (c.toNat % 256) }
        | [] => advance step.then_ip s
    | OpCode.Output =>
        advance step.then_ip
          { s with stdout := s.stdout ++ [Char.ofNat (s.memory.getD s.data_ptr 0)] }
    | OpCode.LoopStart =>
        advance (if s.memory.getD s.data_ptr 0 = 0 then step.else_ip else step.then_ip) s
    | OpCode.LoopEnd =>
        advance (if s.memory.getD s.data_ptr 0 = 0 then step.else_ip else step.then_ip) s

/-- The `ip_map` built by `VM::enable_profiler`:
`code.iter().fold(vec![0], |acc, opcode| { acc.push(acc.last + opcode.count()); acc })`,
i.e. the prefix sums of the opcode counts with a leading `0`.  The fold is
embedded by structural recursion carrying the running sum (the last element
of the Rust accumulator, which is never empty). -/
def ipMapFrom : Nat → List OpCode → List Nat
  | _, [] => []
  | acc, op :: rest => (acc + op.count) :: ipMapFrom (acc + op.count) rest

/-- Profiler configuration from `vm/vm.rs` (`struct Profiler`). -/
structure Profiler where
  profile_data : List Nat
  ip_map : List Nat
deriving DecidableEq, Repr

/-- `VM::enable_profiler` from `vm/vm.rs`, translated literally: note that the
source writes `vec![0, code_len]` — the two-element vector `[0, code_len]` —
for `profile_data` (not `vec![0; code_len]`). -/
def enable_profiler (code : List OpCode) : Profiler :=
  let ip_map := 0 :: ipMapFrom 0 code
  let code_len := ip_map.getD (ip_map.length - 1) 0
  { profile_data := [0, code_len], ip_map := ip_map }

/-- The counter increments of one `VM::<Profiler>::run` iteration:
`(0..count).for_each(|index| profile_data[uncompressed_ip + index] += 1)`.
Indexing a `Vec` out of bounds panics, which the embedding reports as
`none`. -/
def incrRange (l : List Nat) (base : Nat) : Nat → Option (List Nat)
  | 0 => some l
  | k + 1 =>
    if h : base < l.length then
      incrRange (l.set base (l.get ⟨base, h⟩ + 1)) (base + 1) k
    else none

/-- Possible outcomes of the profiler run loop. -/
inductive ProfOut where
  | panic : ProfOut
  | fail : EvalError → ProfOut
  | finished : VMState → List Nat → ProfOut
deriving DecidableEq, Repr

/-- `VM::<Profiler>::run` from `vm/vm.rs` with fuel (`none` = fuel ran out).
Each iteration first increments `count` consecutive counters starting at
`ip_map[ip]`, then dispatches via `execute_step`.  The `.unwrap()` on
`get_step` and any out-of-bounds `Vec` index are Rust panics, reported as
`ProfOut.panic`. -/
def profiler_run : Nat → VMState → Profiler → Option ProfOut
  | 0, _, _ => none
  | fuel + 1, s, cfg =>
    match s.program.get_step s.ip with
    | none => some ProfOut.panic
    | some step =>
      match cfg.ip_map.get? s.ip with
      | none => some ProfOut.panic
      | some uncompressed_ip =>
        match incrRange cfg.profile_data uncompressed_ip step.opcode.count with
        | none => some ProfOut.panic
        | some pd =>
          match execute_step s with
          | Except.error (e, _) => some (ProfOut.fail e)
          | Except.ok (true, s') => some (ProfOut.finished s' pd)
          | Except.ok (false, s') => profiler_run fuel s' { cfg with profile_data := pd }

/-- `n` iterations of the `VM::run` loop.  `ok (false, s)` means the fuel ran
out with the machine still running; `ok (true, s)` is normal termination;
`error (e, s)` is a surfaced evaluation error. -/
def steps : Nat → VMState → Except (EvalError × VMState) (Bool × VMState)
  | 0, s => Except.ok (false, s)
  | n + 1, s =>
    match execute_step s with
    | Except.error es => Except.error es
    | Except.ok (true, s') => Except.ok (true, s')
    | Except.ok (false, s') => steps n s'

/-- The observable outcome of `VM::run` after at most `n` steps: `none` while
still running, otherwise the output written so far together with the error,
if any. -/
def runOutcome (n : Nat) (s : VMState) :
    Option (Except (EvalError × List Char) (List Char)) :=
  match steps n s with
  | Except.ok (false, _) => none
  | Except.ok (true, s') => some (Except.ok s'.stdout)
  | Except.error (e, s') => some (Except.error (e, s'.stdout))

/-- `AST` from `jit/ast.rs`.  `usize` counts become `Nat`; the `isize` offset
of `AddTo` becomes `Int`. -/
inductive AST where
  | DecDataPtr : Nat → AST
  | DecValue : Nat → AST
  | IncDataPtr : Nat → AST
  | IncValue : Nat → AST
  | Input : AST
  | Loop : List AST → AST
  | Output : AST
  | Program : List AST → AST
  | Set : Nat → AST
  | AddTo : Int → AST
deriving Repr

/-- The slice match inside `AST::optimize` on an (already optimised) loop
body: the `[-]`/`[+]` clear patterns and the four copy-loop patterns with
equal-magnitude pointer deltas; anything else stays a `Loop`. -/
def rewriteLoop (cb : List AST) : AST :=
  match cb with
  | [AST.DecValue _] => AST.Set 0
  | [AST.IncValue _] => AST.Set 0
  | [AST.DecValue 1, AST.IncDataPtr a, AST.IncValue 1, AST.DecDataPtr b] =>
      if a = b then AST.AddTo (b : Int) else AST.Loop cb
  | [AST.DecValue 1, AST.DecDataPtr b, AST.IncValue 1, AST.IncDataPtr a] =>
      if a = b then AST.AddTo (-(b : Int)) else AST.Loop cb
  | [AST.DecDataPtr b, AST.IncValue 1, AST.IncDataPtr a, AST.DecValue 1] =>
      if a = b then AST.AddTo (-(b : Int)) else AST.Loop cb
  | [AST.IncDataPtr a, AST.IncValue 1, AST.DecDataPtr b, AST.DecValue 1] =>
      if a = b then AST.AddTo (b : Int) else AST.Loop cb
  | _ => AST.Loop cb

mutual

/-- `AST::optimize` from `jit/ast.rs`: optimise children bottom-up, then apply
the loop rewrites. -/
def AST.optimize : AST → AST
  | AST.Program codeblock => AST.Program (optimizeList codeblock)
  | AST.Loop codeblock => rewriteLoop (optimizeList codeblock)
  | a => a

/-- `codeblock.into_iter().map(AST::optimize).collect()`. -/
def optimizeList : List AST → List AST
  | [] => []
  | a :: rest => AST.optimize a :: optimizeList rest

end

/-- `AST::convert_opcodes` from `jit/ast.rs`, with fuel for the loop-body
recursion (`none` = fuel ran out, a panicking `unwrap`, the `unreachable!`
arm, or an out-of-range `program.code[index]`). -/
def convert_opcodes (p : Program) : Nat → Nat → Nat → Option (List AST)
  | 0, _, _ => none
  | fuel + 1, index, stop =>
    if index < stop then
      match p.code.get? index with
      | none => none
      | some opcode =>
        match opcode with
        | OpCode.DecDataPtr count =>
            (convert_opcodes p fuel (index + 1) stop).map (AST.DecDataPtr count :: ·)
        | OpCode.IncDataPtr count =>
            (convert_opcodes p fuel (index + 1) stop).map (AST.IncDataPtr count :: ·)
        | OpCode.DecValue count =>
            (convert_opcodes p fuel (index + 1) stop).map (AST.DecValue count :: ·)
        | OpCode.IncValue count =>
            (convert_opcodes p fuel (index + 1) stop).map (AST.IncValue count :: ·)
        | OpCode.Input =>
            (convert_opcodes p fuel (index + 1) stop).map (AST.Input :: ·)
        | OpCode.Output =>
            (convert_opcodes p fuel (index + 1) stop).map (AST.Output :: ·)
        | OpCode.LoopStart =>
          match p.jump_table.lookup index with
          | none => none
          | some loop_end =>
            match convert_opcodes p fuel (index + 1) loop_end with
            | none => none
            | some code_block =>
                (convert_opcodes p fuel (loop_end + 1) stop).map (AST.Loop code_block :: ·)
        | OpCode.LoopEnd => none
    else some []

/-- `AST::new` from `jit/ast.rs`:
`AST::Program(AST::convert_opcodes(&program, 0, program.code.len())).optimize()`. -/
def AST.new (p : BF.Program) (fuel : Nat) : Option AST :=
  (convert_opcodes p fuel 0 p.code.length).map (fun cb => AST.optimize (AST.Program cb))

/-! Observable projections used only to state theorems. -/

/-- The memory cell at `data_ptr` of the state a successful `execute_step`
result carries. -/
def cellAfter (r : Except (EvalError × VMState) (Bool × VMState)) : Option Nat :=
  match r with
  | Except.ok (_, s') => some (s'.memory.getD s'.data_ptr 0)
  | Except.error _ => none

/-- The profile counters of a finished profiler run. -/
def profileOf (r : Option ProfOut) : Option (List Nat) :=
  match r with
  | some (ProfOut.finished _ pd) => some pd
  | _ => none

/-! Bracket combinatorics used to specify the jump table. -/

/-- Number of `LoopStart` opcodes in a list. -/
def nOpen : List OpCode → Nat
  | [] => 0
  | OpCode.LoopStart :: r => nOpen r + 1
  | _ :: r => nOpen r

/-- Number of `LoopEnd` opcodes in a list. -/
def nClose : List OpCode → Nat
  | [] => 0
  | OpCode.LoopEnd :: r => nClose r + 1
  | _ :: r => nClose r

/-- The half-open code segment `[a, b)` of a program. -/
def seg (C : List OpCode) (a b : Nat) : List OpCode := (C.drop a).take (b - a)

/-- A list of opcodes whose brackets are fully matched: opens and closes
balance overall and no prefix closes more than it has opened. -/
def DyckOn (l : List OpCode) : Prop :=
  nClose l = nOpen l ∧ ∀ k, nClose (l.take k) ≤ nOpen (l.take k)

/-- `a` and `b` are the positions of a matched bracket pair of `C`: an open
at `a`, a close at `b`, and a fully matched interior. -/
def IsPair (C : List OpCode) (a b : Nat) : Prop :=
  a < b ∧ b < C.length ∧ C.get? a = some OpCode.LoopStart ∧
    C.get? b = some OpCode.LoopEnd ∧ DyckOn (seg C (a + 1) b)

/-- The open brackets the scan has on its stack after processing `[0, idx)`,
innermost first: each is an open bracket, and every gap between consecutive
stack entries (and above the innermost one) is fully matched. -/
def OpenChain (C : List OpCode) : Nat → List Nat → Prop
  | idx, [] => DyckOn (seg C 0 idx)
  | idx, k :: ks => k < idx ∧ C.get? k = some OpCode.LoopStart ∧
      DyckOn (seg C (k + 1) idx) ∧ OpenChain C k ks

/-- Invariant tying the scan's jump table accumulator to the code: entries
are matched pairs (in both directions), keys are distinct, every bracket
already processed is on the stack or in the table, and stacked opens are not
yet in the table. -/
structure TableInv (C : List OpCode) (idx : Nat) (stack : List Nat)
    (table : List (Nat × Nat)) : Prop where
  mem : ∀ a b, (a, b) ∈ table →
    (IsPair C a b ∧ b < idx) ∨ (IsPair C b a ∧ a < idx)
  symm : ∀ a b, (a, b) ∈ table → (b, a) ∈ table
  keysNodup : (table.map Prod.fst).Nodup
  complete : ∀ j, j < idx →
    (C.get? j = some OpCode.LoopStart ∨ C.get? j = some OpCode.LoopEnd) →
    j ∈ stack ∨ ∃ m, (j, m) ∈ table
  stackFresh : ∀ k ∈ stack, ∀ m, (k, m) ∉ table

/-! Infrastructure for the RLE-equivalence refinement: a folded opcode
expands back to the run of unit opcodes it encodes. -/

/-- The run of primitive opcodes a (possibly folded) opcode stands for. -/
def expand : OpCode → List OpCode
  | OpCode.IncDataPtr n => List.replicate n (OpCode.IncDataPtr 1)
  | OpCode.DecDataPtr n => List.replicate n (OpCode.DecDataPtr 1)
  | OpCode.IncValue n => List.replicate n (OpCode.IncValue 1)
  | OpCode.DecValue n => List.replicate n (OpCode.DecValue 1)
  | op => [op]

/-- Expansion of a whole opcode stream. -/
def flatten : List OpCode → List OpCode
  | [] => []
  | op :: rest => expand op ++ flatten rest

/-- Total primitive count of an opcode stream. -/
def countSum : List OpCode → Nat
  | [] => 0
  | op :: rest => op.count + countSum rest

/-- Position of (the first primitive of) compressed opcode `i` inside the
expanded stream: the prefix sum of counts. -/
def amap (q : List OpCode) (i : Nat) : Nat := countSum (q.take i)

/-- The jump table with both components of every entry mapped. -/
def mapPair (f : Nat → Nat) (T : List (Nat × Nat)) : List (Nat × Nat) :=
  T.map (fun ab => (f ab.1, f ab.2))

/-- Simulation relation between a state of the RLE-folded program
`⟨q, T1⟩` and a state of its expanded counterpart: same tape, pointers and
I/O, with the instruction pointer translated through the prefix-sum map. -/
def SimRel (q : List OpCode) (T1 : List (Nat × Nat)) (s1 s2 : VMState) : Prop :=
  s1.program = { code := q, jump_table := T1 } ∧
  s2.program = { code := flatten q, jump_table := mapPair (amap q) T1 } ∧
  s2.ip = amap q s1.ip ∧
  s2.data_ptr = s1.data_ptr ∧ s2.memory = s1.memory ∧
  s2.stdin = s1.stdin ∧ s2.stdout = s1.stdout

/-- One step of the folded machine is matched by one or more steps of the
expanded machine: errors and termination agree on the output, and an
ordinary step re-establishes the simulation relation. -/
def StepMatch (q : List OpCode) (T1 : List (Nat × Nat)) (s1 s2 : VMState) : Prop :=
  (∀ e s1', execute_step s1 = Except.error (e, s1') →
    ∃ n s2', steps (n + 1) s2 = Except.error (e, s2') ∧ s2'.stdout = s1'.stdout) ∧
  (∀ s1', execute_step s1 = Except.ok (true, s1') →
    ∃ n s2', steps (n + 1) s2 = Except.ok (true, s2') ∧ s2'.stdout = s1'.stdout) ∧
  (∀ s1', execute_step s1 = Except.ok (false, s1') →
    ∃ n s2', steps (n + 1) s2 = Except.ok (false, s2') ∧ SimRel q T1 s1' s2')

/-- The five loop-body shapes the spec lists as the only peephole rewrites
(clear loops with any count, and the four copy-loop shapes with
equal-magnitude pointer deltas). -/
def FivePatternShape (cb : List AST) : Prop :=
  (∃ n, cb = [AST.DecValue n]) ∨ (∃ n, cb = [AST.IncValue n]) ∨
  (∃ k, cb = [AST.DecValue 1, AST.IncDataPtr k, AST.IncValue 1, AST.DecDataPtr k]) ∨
  (∃ k, cb = [AST.DecValue 1, AST.DecDataPtr k, AST.IncValue 1, AST.IncDataPtr k]) ∨
  (∃ k, cb = [AST.DecDataPtr k, AST.IncValue 1, AST.IncDataPtr k, AST.DecValue 1]) ∨
  (∃ k, cb = [AST.IncDataPtr k, AST.IncValue 1, AST.DecDataPtr k, AST.DecValue 1])

end BF

namespace BF

/-! ## Theorems -/

/-! Counting and segment algebra for the bracket specification. -/

theorem nOpen_append (A B : List OpCode) : nOpen (A ++ B) = nOpen A + nOpen B := by
  induction A with
  | nil => simp [nOpen]
  | cons x r ih => cases x <;> simp [nOpen, ih] <;> omega

theorem nClose_append (A B : List OpCode) : nClose (A ++ B) = nClose A + nClose B := by
  induction A with
  | nil => simp [nClose]
  | cons x r ih => cases x <;> simp [nClose, ih] <;> omega

theorem nOpen_nil : nOpen [] = 0 := rfl

theorem nClose_nil : nClose [] = 0 := rfl

theorem nOpen_cons_start (r : List OpCode) :
    nOpen (OpCode.LoopStart :: r) = nOpen r + 1 := rfl

theorem nClose_cons_start (r : List OpCode) :
    nClose (OpCode.LoopStart :: r) = nClose r := rfl

theorem nOpen_cons_end (r : List OpCode) :
    nOpen (OpCode.LoopEnd :: r) = nOpen r := rfl

theorem nClose_cons_end (r : List OpCode) :
    nClose (OpCode.LoopEnd :: r) = nClose r + 1 := rfl

theorem nOpen_take_append (A B : List OpCode) (t : Nat) :
    nOpen ((A ++ B).take t) = nOpen (A.take t) + nOpen (B.take (t - A.length)) := by
  rw [List.take_append_eq_append_take, nOpen_append]

theorem nClose_take_append (A B : List OpCode) (t : Nat) :
    nClose ((A ++ B).take t) = nClose (A.take t) + nClose (B.take (t - A.length)) := by
  rw [List.take_append_eq_append_take, nClose_append]

theorem nOpen_close_take (u : Nat) : nOpen (([OpCode.LoopEnd]).take u) = 0 := by
  cases u with
  | zero => rfl
  | succ v => simp [List.take_succ_cons, List.take_nil, nOpen]

theorem nClose_close_take (u : Nat) : nClose (([OpCode.LoopEnd]).take u) ≤ 1 := by
  cases u with
  | zero => simp [List.take_zero, nClose]
  | succ v => simp [List.take_succ_cons, List.take_nil, nClose]

theorem seg_same (C : List OpCode) (a : Nat) : seg C a a = [] := by
  simp [seg]

theorem seg_split (C : List OpCode) {a b c : Nat} (hab : a ≤ b) (hbc : b ≤ c) :
    seg C a c = seg C a b ++ seg C b c := by
  unfold seg
  have h1 : c - a = (b - a) + (c - b) := by omega
  rw [h1, List.take_add]
  congr 2
  rw [List.drop_drop]
  congr 1
  omega

theorem seg_zero (C : List OpCode) (idx : Nat) : seg C 0 idx = C.take idx := by
  simp [seg]

theorem get?_lt_length {C : List OpCode} {b : Nat} {op : OpCode}
    (h : C.get? b = some op) : b < C.length := by
  by_contra hb
  rw [List.get?_eq_none.mpr (by omega)] at h
  exact Option.noConfusion h

theorem seg_one {C : List OpCode} {b : Nat} {op : OpCode}
    (h : C.get? b = some op) : seg C b (b + 1) = [op] := by
  unfold seg
  have hone : b + 1 - b = 1 := by omega
  rw [hone]
  rcases hd : C.drop b with _ | ⟨x, r⟩
  · have hlen : C.length - b = 0 := by
      have := List.length_drop b C
      rw [hd] at this
      simpa using this.symm
    exact absurd (get?_lt_length h) (by omega)
  · have hx : (C.drop b).get? 0 = some op := by
      rw [List.get?_drop]
      simpa using h
    rw [hd] at hx
    simp only [List.get?] at hx
    cases hx
    simp

theorem DyckOn_nil : DyckOn [] := by
  exact ⟨rfl, fun k => by simp [List.take_nil, nOpen, nClose]⟩

theorem DyckOn_append {A B : List OpCode} (hA : DyckOn A) (hB : DyckOn B) :
    DyckOn (A ++ B) := by
  constructor
  · rw [nClose_append, nOpen_append, hA.1, hB.1]
  · intro k
    rw [nClose_take_append, nOpen_take_append]
    exact Nat.add_le_add (hA.2 k) (hB.2 _)

theorem DyckOn_other {op : OpCode} (h1 : op ≠ OpCode.LoopStart)
    (h2 : op ≠ OpCode.LoopEnd) : DyckOn [op] := by
  constructor
  · cases op <;> first | rfl | exact absurd rfl h1 | exact absurd rfl h2
  · intro k
    cases k with
    | zero => simp [List.take_zero, nOpen, nClose]
    | succ u =>
      rw [List.take_succ_cons, List.take_nil]
      cases op <;> first
        | exact absurd rfl h1
        | exact absurd rfl h2
        | simp [nOpen, nClose]

theorem DyckOn_wrap {A : List OpCode} (hA : DyckOn A) :
    DyckOn (OpCode.LoopStart :: (A ++ [OpCode.LoopEnd])) := by
  constructor
  · show nClose (A ++ [OpCode.LoopEnd]) = nOpen (A ++ [OpCode.LoopEnd]) + 1
    rw [nClose_append, nOpen_append, hA.1]
    simp [nOpen, nClose]
  · intro k
    cases k with
    | zero => simp [nOpen, nClose]
    | succ u =>
      rw [List.take_succ_cons]
      show nClose ((A ++ [OpCode.LoopEnd]).take u) ≤
        nOpen ((A ++ [OpCode.LoopEnd]).take u) + 1
      rw [nClose_take_append, nOpen_take_append, nOpen_close_take]
      have h1 := hA.2 u
      have h2 := nClose_close_take (u - A.length)
      omega

/-- C10: for every VM whose instruction pointer is not a valid index into the
opcode stream (in particular any VM over the empty program), `execute_step`
returns `done = true` and leaves the whole state — instruction pointer, data
pointer, tape and both I/O capabilities — unchanged. -/
theorem claim_C10_invalid_ip_is_done (s : VMState)
    (h : s.program.code.length ≤ s.ip) :
    execute_step s = Except.ok (true, s) := by
  have hget : s.program.code.get? s.ip = none := by
    exact List.get?_eq_none.mpr h
  unfold execute_step Program.get_step
  rw [hget]

/-- C10 witness: the empty program at instruction pointer 0. -/
theorem claim_C10_invalid_ip_is_done_witness :
    (Program.new [] false = Except.ok { code := [], jump_table := [] }) ∧
    execute_step (VMState.init { code := [], jump_table := [] } [] 4) =
      Except.ok (true, VMState.init { code := [], jump_table := [] } [] 4) := by
  refine ⟨by rfl, claim_C10_invalid_ip_is_done _ (by decide)⟩

/-! Scan-stack chain lemmas. -/

theorem chain_lt {C : List OpCode} {idx : Nat} {st : List Nat}
    (h : OpenChain C idx st) : ∀ k ∈ st, k < idx := by
  induction st generalizing idx with
  | nil => intro k hk; exact absurd hk (List.not_mem_nil k)
  | cons j js ih =>
    intro k hk
    obtain ⟨hj, -, -, hch⟩ := h
    rcases List.mem_cons.mp hk with rfl | hk2
    · exact hj
    · exact lt_trans (ih hch k hk2) hj

theorem chain_push {C : List OpCode} {idx : Nat} {st : List Nat}
    (hop : C.get? idx = some OpCode.LoopStart)
    (hch : OpenChain C idx st) : OpenChain C (idx + 1) (idx :: st) :=
  ⟨Nat.lt_succ_self idx, hop, by rw [seg_same]; exact DyckOn_nil, hch⟩

theorem chain_extend_other {C : List OpCode} {idx : Nat} {st : List Nat} {op : OpCode}
    (hop : C.get? idx = some op) (h1 : op ≠ OpCode.LoopStart)
    (h2 : op ≠ OpCode.LoopEnd)
    (hch : OpenChain C idx st) : OpenChain C (idx + 1) st := by
  cases st with
  | nil =>
    show DyckOn (seg C 0 (idx + 1))
    rw [seg_split C (Nat.zero_le idx) (Nat.le_succ idx), seg_one hop]
    exact DyckOn_append hch (DyckOn_other h1 h2)
  | cons k ks =>
    obtain ⟨hk, hkop, hd, hch2⟩ := hch
    refine ⟨by omega, hkop, ?_, hch2⟩
    rw [seg_split C (show k + 1 ≤ idx by omega) (Nat.le_succ idx), seg_one hop]
    exact DyckOn_append hd (DyckOn_other h1 h2)

theorem chain_close {C : List OpCode} {start idx : Nat} {ks : List Nat}
    (hst : C.get? start = some OpCode.LoopStart)
    (hen : C.get? idx = some OpCode.LoopEnd)
    (hlt : start < idx)
    (hd : DyckOn (seg C (start + 1) idx))
    (hch : OpenChain C start ks) : OpenChain C (idx + 1) ks := by
  have hwrap : ∀ X, X ≤ start → seg C X (idx + 1) =
      seg C X start ++ (OpCode.LoopStart :: (seg C (start + 1) idx ++ [OpCode.LoopEnd])) := by
    intro X hX
    rw [seg_split C hX (show start ≤ idx + 1 by omega)]
    congr 1
    rw [seg_split C (show start ≤ start + 1 by omega) (show start + 1 ≤ idx + 1 by omega),
        seg_one hst,
        seg_split C (show start + 1 ≤ idx by omega) (Nat.le_succ idx), seg_one hen]
    simp
  cases ks with
  | nil =>
    show DyckOn (seg C 0 (idx + 1))
    rw [hwrap 0 (Nat.zero_le start)]
    exact DyckOn_append hch (DyckOn_wrap hd)
  | cons k ks2 =>
    obtain ⟨hk, hkop, hkd, hch2⟩ := hch
    refine ⟨by omega, hkop, ?_, hch2⟩
    rw [hwrap (k + 1) (by omega)]
    exact DyckOn_append hkd (DyckOn_wrap hd)

theorem chain_count {C : List OpCode} {idx : Nat} {st : List Nat}
    (h : OpenChain C idx st) :
    nOpen (C.take idx) = nClose (C.take idx) + st.length := by
  induction st generalizing idx with
  | nil =>
    have hd : DyckOn (C.take idx) := by rw [← seg_zero]; exact h
    simpa using hd.1.symm
  | cons k ks ih =>
    obtain ⟨hk, hkop, hd, hch⟩ := h
    have e1 : C.take idx = C.take k ++ (OpCode.LoopStart :: seg C (k + 1) idx) := by
      rw [← seg_zero, seg_split C (Nat.zero_le k) (le_of_lt hk), seg_zero]
      congr 1
      rw [seg_split C (show k ≤ k + 1 by omega) (show k + 1 ≤ idx by omega), seg_one hkop]
      simp
    have h2 := ih hch
    have h3 := hd.1
    rw [e1, nOpen_append, nClose_append]
    simp only [nOpen, nClose, List.length_cons] at *
    omega

/-! Association-list lookup lemmas for the jump table. -/

theorem lookup_mem {T : List (Nat × Nat)} {i j : Nat}
    (h : T.lookup i = some j) : (i, j) ∈ T := by
  induction T with
  | nil => exact Option.noConfusion h
  | cons p rest ih =>
    obtain ⟨a, b⟩ := p
    by_cases hia : i = a
    · subst hia
      simp only [List.lookup, beq_self_eq_true] at h
      cases h
      exact List.mem_cons_self _ _
    · simp only [List.lookup, beq_eq_false_iff_ne.mpr hia] at h
      exact List.mem_cons_of_mem _ (ih h)

theorem mem_lookup_of_nodup {T : List (Nat × Nat)} {i j : Nat}
    (hnd : (T.map Prod.fst).Nodup) (h : (i, j) ∈ T) : T.lookup i = some j := by
  induction T with
  | nil => exact absurd h (List.not_mem_nil _)
  | cons p rest ih =>
    obtain ⟨a, b⟩ := p
    rw [List.map_cons, List.nodup_cons] at hnd
    rcases List.mem_cons.mp h with heq | hmem
    · cases heq
      simp [List.lookup]
    · have hia : i ≠ a := by
        intro hh
        subst hh
        exact hnd.1 (List.mem_map.mpr ⟨(i, j), hmem, rfl⟩)
      simp only [List.lookup, beq_eq_false_iff_ne.mpr hia]
      exact ih hnd.2 hmem

/-! Table invariant preservation. -/

theorem table_keys_lt {C : List OpCode} {idx : Nat} {stack : List Nat}
    {table : List (Nat × Nat)} (ti : TableInv C idx stack table) :
    ∀ a b, (a, b) ∈ table → a < idx ∧ b < idx := by
  intro a b h
  rcases ti.mem a b h with ⟨hp, hb⟩ | ⟨hp, ha⟩
  · have := hp.1; omega
  · have := hp.1; omega

theorem tableInv_step_other {C : List OpCode} {idx : Nat} {stack : List Nat}
    {table : List (Nat × Nat)} {op : OpCode}
    (hop : C.get? idx = some op) (h1 : op ≠ OpCode.LoopStart)
    (h2 : op ≠ OpCode.LoopEnd)
    (ti : TableInv C idx stack table) : TableInv C (idx + 1) stack table := by
  refine ⟨?_, ti.symm, ti.keysNodup, ?_, ti.stackFresh⟩
  · intro a b hab
    rcases ti.mem a b hab with ⟨hp, hb⟩ | ⟨hp, ha⟩
    · exact Or.inl ⟨hp, by omega⟩
    · exact Or.inr ⟨hp, by omega⟩
  · intro j hj hbr
    rcases Nat.lt_succ_iff_lt_or_eq.mp hj with hj2 | rfl
    · exact ti.complete j hj2 hbr
    · rcases hbr with hS | hE
      · rw [hop] at hS
        injection hS with hS2
        exact absurd hS2 h1
      · rw [hop] at hE
        injection hE with hE2
        exact absurd hE2 h2

theorem tableInv_push {C : List OpCode} {idx : Nat} {stack : List Nat}
    {table : List (Nat × Nat)}
    (ti : TableInv C idx stack table) : TableInv C (idx + 1) (idx :: stack) table := by
  refine ⟨?_, ti.symm, ti.keysNodup, ?_, ?_⟩
  · intro a b hab
    rcases ti.mem a b hab with ⟨hp, hb⟩ | ⟨hp, ha⟩
    · exact Or.inl ⟨hp, by omega⟩
    · exact Or.inr ⟨hp, by omega⟩
  · intro j hj hbr
    rcases Nat.lt_succ_iff_lt_or_eq.mp hj with hj2 | rfl
    · rcases ti.complete j hj2 hbr with hst | htb
      · exact Or.inl (List.mem_cons_of_mem _ hst)
      · exact Or.inr htb
    · exact Or.inl (List.mem_cons_self _ _)
  · intro k hk m hmem
    rcases List.mem_cons.mp hk with rfl | hk2
    · exact absurd (table_keys_lt ti _ _ hmem).1 (lt_irrefl k)
    · exact ti.stackFresh k hk2 m hmem

theorem tableInv_close {C : List OpCode} {start idx : Nat} {stack2 : List Nat}
    {table : List (Nat × Nat)}
    (hpair : IsPair C start idx)
    (hstack : ∀ k ∈ stack2, k < start)
    (ti : TableInv C idx (start :: stack2) table) :
    TableInv C (idx + 1) stack2 ((start, idx) :: (idx, start) :: table) := by
  have hkeys := table_keys_lt ti
  have hfresh := ti.stackFresh start (List.mem_cons_self _ _)
  have hlt := hpair.1
  refine ⟨?_, ?_, ?_, ?_, ?_⟩
  · intro a b hab
    rcases List.mem_cons.mp hab with heq | hab2
    · cases heq; exact Or.inl ⟨hpair, by omega⟩
    rcases List.mem_cons.mp hab2 with heq | hab3
    · cases heq; exact Or.inr ⟨hpair, by omega⟩
    rcases ti.mem a b hab3 with ⟨hp, hb⟩ | ⟨hp, ha⟩
    · exact Or.inl ⟨hp, by omega⟩
    · exact Or.inr ⟨hp, by omega⟩
  · intro a b hab
    rcases List.mem_cons.mp hab with heq | hab2
    · cases heq; exact List.mem_cons_of_mem _ (List.mem_cons_self _ _)
    rcases List.mem_cons.mp hab2 with heq | hab3
    · cases heq; exact List.mem_cons_self _ _
    · exact List.mem_cons_of_mem _ (List.mem_cons_of_mem _ (ti.symm a b hab3))
  · rw [List.map_cons, List.map_cons, List.nodup_cons, List.nodup_cons]
    refine ⟨?_, ?_, ti.keysNodup⟩
    · intro hmem
      rcases List.mem_cons.mp hmem with heq | hmem2
      · omega
      · rcases List.mem_map.mp hmem2 with ⟨⟨a, b⟩, hab, hfst⟩
        cases hfst
        exact hfresh b hab
    · intro hmem
      rcases List.mem_map.mp hmem with ⟨⟨a, b⟩, hab, hfst⟩
      cases hfst
      exact absurd (hkeys _ _ hab).1 (lt_irrefl idx)
  · intro j hj hbr
    rcases Nat.lt_succ_iff_lt_or_eq.mp hj with hj2 | rfl
    · rcases ti.complete j hj2 hbr with hst | ⟨m, hm⟩
      · rcases List.mem_cons.mp hst with rfl | hst2
        · exact Or.inr ⟨idx, List.mem_cons_self _ _⟩
        · exact Or.inl hst2
      · exact Or.inr ⟨m, List.mem_cons_of_mem _ (List.mem_cons_of_mem _ hm)⟩
    · exact Or.inr ⟨start, List.mem_cons_of_mem _ (List.mem_cons_self _ _)⟩
  · intro k hk m hmem
    have hks := hstack k hk
    rcases List.mem_cons.mp hmem with heq | hmem2
    · cases heq; omega
    rcases List.mem_cons.mp hmem2 with heq | hmem3
    · cases heq; omega
    · exact ti.stackFresh k (List.mem_cons_of_mem _ hk) m hmem3

/-- Main invariant of the bracket-matching scan: from a chain-and-table
invariant at `idx`, a successful scan of the remaining opcodes yields the
invariant at the end of the code, and a failure is a close bracket reached
with an empty stack — i.e. one whose prefix is fully matched. -/
theorem scanB_inv (rest : List OpCode) :
    ∀ (C : List OpCode) (idx : Nat) (stack : List Nat) (table : List (Nat × Nat)),
    C.drop idx = rest → idx ≤ C.length →
    OpenChain C idx stack → TableInv C idx stack table →
    (match scanB rest idx stack table with
     | Except.ok (stack2, table2) =>
        OpenChain C C.length stack2 ∧ TableInv C C.length stack2 table2
     | Except.error (ProgramError.MissingBracket i) =>
        i < C.length ∧ C.get? i = some OpCode.LoopEnd ∧ DyckOn (seg C 0 i)) := by
  induction rest with
  | nil =>
    intro C idx stack table hdrop hle hch hti
    have hlen : (C.drop idx).length = 0 := by rw [hdrop]; rfl
    rw [List.length_drop] at hlen
    have : idx = C.length := by omega
    subst this
    exact ⟨hch, hti⟩
  | cons op rest2 ih =>
    intro C idx stack table hdrop hle hch hti
    have hop : C.get? idx = some op := by
      have h0 : (C.drop idx).get? 0 = some op := by rw [hdrop]; rfl
      rw [List.get?_drop] at h0
      simpa using h0
    have hlt : idx < C.length := get?_lt_length hop
    have hdrop2 : C.drop (idx + 1) = rest2 := by
      rw [← List.tail_drop, hdrop]
      rfl
    cases op with
    | LoopStart =>
      exact ih C (idx + 1) (idx :: stack) table hdrop2 (by omega)
        (chain_push hop hch) (tableInv_push hti)
    | LoopEnd =>
      cases stack with
      | nil => exact ⟨hlt, hop, hch⟩
      | cons start stack2 =>
        obtain ⟨hslt, hsop, hsd, hch2⟩ := hch
        have hpair : IsPair C start idx := ⟨hslt, hlt, hsop, hop, hsd⟩
        exact ih C (idx + 1) stack2 _ hdrop2 (by omega)
          (chain_close hsop hop hslt hsd hch2)
          (tableInv_close hpair (chain_lt hch2) hti)
    | IncDataPtr n =>
      exact ih C (idx + 1) stack table hdrop2 (by omega)
        (chain_extend_other hop (by simp) (by simp) hch)
        (tableInv_step_other hop (by simp) (by simp) hti)
    | DecDataPtr n =>
      exact ih C (idx + 1) stack table hdrop2 (by omega)
        (chain_extend_other hop (by simp) (by simp) hch)
        (tableInv_step_other hop (by simp) (by simp) hti)
    | IncValue n =>
      exact ih C (idx + 1) stack table hdrop2 (by omega)
        (chain_extend_other hop (by simp) (by simp) hch)
        (tableInv_step_other hop (by simp) (by simp) hti)
    | DecValue n =>
      exact ih C (idx + 1) stack table hdrop2 (by omega)
        (chain_extend_other hop (by simp) (by simp) hch)
        (tableInv_step_other hop (by simp) (by simp) hti)
    | Input =>
      exact ih C (idx + 1) stack table hdrop2 (by omega)
        (chain_extend_other hop (by simp) (by simp) hch)
        (tableInv_step_other hop (by simp) (by simp) hti)
    | Output =>
      exact ih C (idx + 1) stack table hdrop2 (by omega)
        (chain_extend_other hop (by simp) (by simp) hch)
        (tableInv_step_other hop (by simp) (by simp) hti)

/-- The scan invariant instantiated at the start of the code. -/
theorem scanB_spec (C : List OpCode) :
    (match scanB C 0 [] [] with
     | Except.ok (stack2, table2) =>
        OpenChain C C.length stack2 ∧ TableInv C C.length stack2 table2
     | Except.error (ProgramError.MissingBracket i) =>
        i < C.length ∧ C.get? i = some OpCode.LoopEnd ∧ DyckOn (seg C 0 i)) := by
  have h0 : OpenChain C 0 [] := by
    show DyckOn (seg C 0 0)
    rw [seg_same]
    exact DyckOn_nil
  have hti : TableInv C 0 [] [] :=
    ⟨fun a b hab => absurd hab (List.not_mem_nil _),
     fun a b hab => absurd hab (List.not_mem_nil _),
     List.nodup_nil,
     fun j hj _ => absurd hj (Nat.not_lt_zero j),
     fun k hk => absurd hk (List.not_mem_nil _)⟩
  exact scanB_inv C C 0 [] [] rfl (Nat.zero_le _) h0 hti

/-- A successful `Program::new` returns the scanned code and a jump table
satisfying the invariant (with an empty final stack). -/
theorem program_new_ok {src : List Char} {rle : Bool} {p : Program}
    (h : Program.new src rle = Except.ok p) :
    p.code = codeOf src rle ∧ OpenChain p.code p.code.length ([] : List Nat) ∧
      TableInv p.code p.code.length [] p.jump_table := by
  have hs := scanB_spec (codeOf src rle)
  unfold Program.new at h
  rcases hscan : scanB (codeOf src rle) 0 [] [] with ⟨e⟩ | ⟨stack, table⟩ <;>
    rw [hscan] at h hs
  · exact absurd h (by simp)
  · cases stack with
    | cons j js => exact absurd h (by simp)
    | nil =>
      injection h with h1
      subst h1
      obtain ⟨h1, h2⟩ := hs
      exact ⟨rfl, h1, h2⟩

theorem lookup_swap {C : List OpCode} {T : List (Nat × Nat)}
    (ti : TableInv C C.length [] T) {i j : Nat} (h : T.lookup i = some j) :
    T.lookup j = some i :=
  mem_lookup_of_nodup ti.keysNodup (ti.symm _ _ (lookup_mem h))

theorem lookup_is_pair {C : List OpCode} {T : List (Nat × Nat)}
    (ti : TableInv C C.length [] T) {i j : Nat} (h : T.lookup i = some j) :
    IsPair C i j ∨ IsPair C j i := by
  rcases ti.mem _ _ (lookup_mem h) with ⟨hp, -⟩ | ⟨hp, -⟩
  · exact Or.inl hp
  · exact Or.inr hp

theorem bracket_has_lookup {C : List OpCode} {T : List (Nat × Nat)}
    (ti : TableInv C C.length [] T) {i : Nat}
    (h : C.get? i = some OpCode.LoopStart ∨ C.get? i = some OpCode.LoopEnd) :
    ∃ j, T.lookup i = some j := by
  have hi : i < C.length := by
    rcases h with h | h
    exacts [get?_lt_length h, get?_lt_length h]
  rcases ti.complete i hi h with hst | ⟨m, hm⟩
  · exact absurd hst (List.not_mem_nil _)
  · exact ⟨m, mem_lookup_of_nodup ti.keysNodup hm⟩

theorem pair_of_lookup_start {C : List OpCode} {T : List (Nat × Nat)}
    (ti : TableInv C C.length [] T) {i j : Nat} (h : T.lookup i = some j)
    (hi : C.get? i = some OpCode.LoopStart) : IsPair C i j := by
  rcases lookup_is_pair ti h with hp | hp
  · exact hp
  · rw [hp.2.2.2.1] at hi
    injection hi with hi2
    exact OpCode.noConfusion hi2

theorem pair_of_lookup_end {C : List OpCode} {T : List (Nat × Nat)}
    (ti : TableInv C C.length [] T) {i j : Nat} (h : T.lookup i = some j)
    (hi : C.get? i = some OpCode.LoopEnd) : IsPair C j i := by
  rcases lookup_is_pair ti h with hp | hp
  · rw [hp.2.2.1] at hi
    injection hi with hi2
    exact OpCode.noConfusion hi2
  · exact hp

/-! Uniqueness and nesting of matched pairs, by bracket counting. -/

theorem seg_take {C : List OpCode} (a b c : Nat) (h : c ≤ b) :
    (seg C a b).take (c - a) = seg C a c := by
  unfold seg
  rw [List.take_take]
  congr 1
  omega

theorem pair_right_not_lt {C : List OpCode} {a b b' : Nat}
    (h1 : IsPair C a b) (h2 : IsPair C a b') : ¬ (b < b') := by
  intro hlt
  obtain ⟨hab, hblen, haop, hbop, hd1⟩ := h1
  obtain ⟨hab', hblen', -, -, hd2⟩ := h2
  have hk := hd2.2 (b - a)
  have hco : b - a = b + 1 - (a + 1) := by omega
  rw [hco, seg_take (a + 1) b' (b + 1) (by omega),
      seg_split C (show a + 1 ≤ b by omega) (Nat.le_succ b), seg_one hbop,
      nClose_append, nOpen_append, nClose_cons_end, nOpen_cons_end,
      nClose_nil, nOpen_nil] at hk
  have hd := hd1.1
  omega

theorem pair_unique_right {C : List OpCode} {a b b' : Nat}
    (h1 : IsPair C a b) (h2 : IsPair C a b') : b = b' := by
  rcases Nat.lt_trichotomy b b' with h | h | h
  · exact absurd h (pair_right_not_lt h1 h2)
  · exact h
  · exact absurd h (pair_right_not_lt h2 h1)

theorem seg_prefix_take {C : List OpCode} {x y : Nat} (X : List OpCode)
    (hxy : x ≤ y) (hyl : y ≤ C.length) :
    (seg C x y ++ X).take (y - x) = seg C x y := by
  have hlen : (seg C x y).length = y - x := by
    unfold seg
    rw [List.length_take, List.length_drop]
    omega
  rw [List.take_append_of_le_length (le_of_eq hlen.symm), ← hlen, List.take_length]

theorem pair_left_not_lt {C : List OpCode} {a a' b : Nat}
    (h1 : IsPair C a b) (h2 : IsPair C a' b) : ¬ (a < a') := by
  intro hlt
  obtain ⟨hab, hblen, haop, hbop, hd1⟩ := h1
  obtain ⟨hab', -, haop', -, hd2⟩ := h2
  -- split the interior of (a, b) at the open bracket a'
  have hsplit : seg C (a + 1) b =
      seg C (a + 1) a' ++ (OpCode.LoopStart :: seg C (a' + 1) b) := by
    rw [seg_split C (show a + 1 ≤ a' by omega) (show a' ≤ b by omega)]
    congr 1
    rw [seg_split C (show a' ≤ a' + 1 by omega) (show a' + 1 ≤ b by omega),
        seg_one haop']
    simp
  have htot := hd1.1
  rw [hsplit, nClose_append, nOpen_append] at htot
  have hq := hd2.1
  have hpre := hd1.2 (a' - (a + 1))
  rw [hsplit] at hpre
  rw [seg_prefix_take (OpCode.LoopStart :: seg C (a' + 1) b)
        (show a + 1 ≤ a' by omega) (show a' ≤ C.length by omega)] at hpre
  rw [nClose_cons_start, nOpen_cons_start] at htot
  omega

theorem pair_unique_left {C : List OpCode} {a a' b : Nat}
    (h1 : IsPair C a b) (h2 : IsPair C a' b) : a = a' := by
  rcases Nat.lt_trichotomy a a' with h | h | h
  · exact absurd h (pair_left_not_lt h1 h2)
  · exact h
  · exact absurd h (pair_left_not_lt h2 h1)

theorem pair_nested {C : List OpCode} {a b a' b' : Nat}
    (h1 : IsPair C a b) (h2 : IsPair C a' b')
    (haa : a < a') (hab : a' < b) : b' < b := by
  by_contra hbb
  push_neg at hbb
  rcases Nat.eq_or_lt_of_le hbb with rfl | hlt
  · exact absurd (pair_unique_left h1 h2) (by omega)
  · obtain ⟨hab0, hblen, haop, hbop, hd1⟩ := h1
    obtain ⟨hab', hblen', haop', -, hd2⟩ := h2
    have hsplit : seg C (a + 1) b =
        seg C (a + 1) a' ++ (OpCode.LoopStart :: seg C (a' + 1) b) := by
      rw [seg_split C (show a + 1 ≤ a' by omega) (show a' ≤ b by omega)]
      congr 1
      rw [seg_split C (show a' ≤ a' + 1 by omega) (show a' + 1 ≤ b by omega),
          seg_one haop']
      simp
    have htot := hd1.1
    rw [hsplit, nClose_append, nOpen_append] at htot
    have hpre := hd1.2 (a' - (a + 1))
    rw [hsplit] at hpre
    rw [seg_prefix_take (OpCode.LoopStart :: seg C (a' + 1) b)
          (show a + 1 ≤ a' by omega) (show a' ≤ C.length by omega)] at hpre
    -- the prefix of the interior of (a', b') reaching b is exactly seg (a'+1) b
    have hq := hd2.2 (b - (a' + 1))
    rw [seg_take (a' + 1) b' b (by omega)] at hq
    rw [nClose_cons_start, nOpen_cons_start] at htot
    omega

/-- `Program::new` succeeds exactly on balanced bracket streams. -/
theorem new_ok_iff_dyck (src : List Char) (rle : Bool) :
    (∃ p, Program.new src rle = Except.ok p) ↔ DyckOn (codeOf src rle) := by
  have hs := scanB_spec (codeOf src rle)
  unfold Program.new
  rcases hscan : scanB (codeOf src rle) 0 [] [] with ⟨e⟩ | ⟨stack, table⟩ <;>
    rw [hscan] at hs
  · cases e with
    | MissingBracket i =>
      obtain ⟨hi, hopi, hdi⟩ := hs
      constructor
      · rintro ⟨p, hp⟩
        exact absurd hp (by simp)
      · intro hD
        exfalso
        have hk := hD.2 (i + 1)
        have he : (codeOf src rle).take (i + 1) =
            (codeOf src rle).take i ++ [OpCode.LoopEnd] := by
          rw [← seg_zero, ← seg_zero, seg_split _ (Nat.zero_le i) (Nat.le_succ i),
              seg_one hopi]
        rw [he, nClose_append, nOpen_append, nClose_cons_end, nOpen_cons_end,
            nClose_nil, nOpen_nil] at hk
        have h2 := hdi.1
        rw [seg_zero] at h2
        omega
  · cases stack with
    | nil =>
      constructor
      · intro _
        have hch : DyckOn (seg (codeOf src rle) 0 (codeOf src rle).length) := hs.1
        rwa [seg_zero, List.take_length] at hch
      · intro _
        exact ⟨_, rfl⟩
    | cons j js =>
      constructor
      · rintro ⟨p, hp⟩
        exact absurd hp (by simp)
      · intro hD
        exfalso
        have hc := chain_count hs.1
        rw [List.take_length] at hc
        have hd := hD.1
        simp only [List.length_cons] at hc
        omega

/-- The index reported by a failing `Program::new` is either a close bracket
whose preceding brackets are fully matched (empty-stack failure) or an open
bracket whose whole suffix is fully matched (an unmatched open). -/
theorem new_error_char (src : List Char) (rle : Bool) (i : Nat)
    (h : Program.new src rle = Except.error (ProgramError.MissingBracket i)) :
    i < (codeOf src rle).length ∧
    (((codeOf src rle).get? i = some OpCode.LoopEnd ∧
       nOpen ((codeOf src rle).take i) = nClose ((codeOf src rle).take i)) ∨
     ((codeOf src rle).get? i = some OpCode.LoopStart ∧
       DyckOn (seg (codeOf src rle) (i + 1) (codeOf src rle).length))) := by
  have hs := scanB_spec (codeOf src rle)
  unfold Program.new at h
  rcases hscan : scanB (codeOf src rle) 0 [] [] with ⟨e⟩ | ⟨stack, table⟩ <;>
    rw [hscan] at hs h
  · cases e with
    | MissingBracket i2 =>
      injection h with h1
      injection h1 with h2
      subst h2
      obtain ⟨hi, hop, hd⟩ := hs
      refine ⟨hi, Or.inl ⟨hop, ?_⟩⟩
      have h3 := hd.1
      rw [seg_zero] at h3
      omega
  · cases stack with
    | nil => exact absurd h (by simp)
    | cons j js =>
      injection h with h1
      injection h1 with h2
      subst h2
      obtain ⟨hch, -⟩ := hs
      obtain ⟨hjlt, hjop, hjd, -⟩ := hch
      exact ⟨hjlt, Or.inr ⟨hjop, hjd⟩⟩

/-- C4: `Program` construction fails with `MissingBracket(i)` exactly when
brackets are unmatched; on a close-bracket failure `i` is the offending close
(all earlier brackets matched), on an end-of-scan failure `i` is an unmatched
open (its suffix is fully matched); concretely `"[[[]]"` fails with
`MissingBracket 0` and `"[[[]]]]"` with `MissingBracket 6`, for either RLE
setting. -/
theorem claim_C4_missing_bracket_reporting :
    (∀ (src : List Char) (rle : Bool),
      (∃ p, Program.new src rle = Except.ok p) ↔ DyckOn (codeOf src rle)) ∧
    (∀ (src : List Char) (rle : Bool) (i : Nat),
      Program.new src rle = Except.error (ProgramError.MissingBracket i) →
      i < (codeOf src rle).length ∧
      (((codeOf src rle).get? i = some OpCode.LoopEnd ∧
         nOpen ((codeOf src rle).take i) = nClose ((codeOf src rle).take i)) ∨
       ((codeOf src rle).get? i = some OpCode.LoopStart ∧
         DyckOn (seg (codeOf src rle) (i + 1) (codeOf src rle).length)))) ∧
    Program.new ("[[[]]").toList false = Except.error (ProgramError.MissingBracket 0) ∧
    Program.new ("[[[]]").toList true = Except.error (ProgramError.MissingBracket 0) ∧
    Program.new ("[[[]]]]").toList false = Except.error (ProgramError.MissingBracket 6) ∧
    Program.new ("[[[]]]]").toList true = Except.error (ProgramError.MissingBracket 6) :=
  ⟨new_ok_iff_dyck, new_error_char, by rfl, by rfl, by rfl, by rfl⟩

/-- C4 witness: `"[]"` constructs, so its code is Dyck; `"[[[]]"` fails at
index 0, an unmatched open. -/
theorem claim_C4_missing_bracket_reporting_witness :
    DyckOn (codeOf ("[]").toList false) ∧
    (0 < (codeOf ("[[[]]").toList false).length ∧
      (((codeOf ("[[[]]").toList false).get? 0 = some OpCode.LoopEnd ∧
         nOpen ((codeOf ("[[[]]").toList false).take 0) =
           nClose ((codeOf ("[[[]]").toList false).take 0)) ∨
       ((codeOf ("[[[]]").toList false).get? 0 = some OpCode.LoopStart ∧
         DyckOn (seg (codeOf ("[[[]]").toList false) 1
           (codeOf ("[[[]]").toList false).length)))) := by
  constructor
  · exact (claim_C4_missing_bracket_reporting.1 ("[]").toList false).mp
      ⟨{ code := [OpCode.LoopStart, OpCode.LoopEnd], jump_table := [(0, 1), (1, 0)] },
       by rfl⟩
  · exact claim_C4_missing_bracket_reporting.2.1 ("[[[]]").toList false 0 (by rfl)

/-- C5: for every source that constructs successfully, the jump table is a
bidirectional involution on bracket positions, every bracket index is a key,
a `LoopStart` key maps to its matching `LoopEnd` (a genuine matched pair,
unique in both directions) and vice versa, and pairs never cross. -/
theorem claim_C5_jump_table_involution (src : List Char) (rle : Bool)
    (p : Program) (h : Program.new src rle = Except.ok p) :
    (∀ i j, p.jump_table.lookup i = some j → p.jump_table.lookup j = some i) ∧
    (∀ i, (p.code.get? i = some OpCode.LoopStart ∨
           p.code.get? i = some OpCode.LoopEnd) →
      ∃ j, p.jump_table.lookup i = some j) ∧
    (∀ i j, p.jump_table.lookup i = some j →
      (p.code.get? i = some OpCode.LoopStart → IsPair p.code i j) ∧
      (p.code.get? i = some OpCode.LoopEnd → IsPair p.code j i)) ∧
    (∀ a b b', IsPair p.code a b → IsPair p.code a b' → b = b') ∧
    (∀ a a' b, IsPair p.code a b → IsPair p.code a' b → a = a') ∧
    (∀ a b a' b', p.jump_table.lookup a = some b →
      p.code.get? a = some OpCode.LoopStart →
      p.jump_table.lookup a' = some b' →
      p.code.get? a' = some OpCode.LoopStart →
      a < a' → a' < b → b' < b) := by
  obtain ⟨-, -, hti⟩ := program_new_ok h
  exact ⟨fun i j hij => lookup_swap hti hij,
         fun i hbr => bracket_has_lookup hti hbr,
         fun i j hij => ⟨fun hS => pair_of_lookup_start hti hij hS,
                         fun hE => pair_of_lookup_end hti hij hE⟩,
         fun a b b' h1 h2 => pair_unique_right h1 h2,
         fun a a' b h1 h2 => pair_unique_left h1 h2,
         fun a b a' b' hab hSa hab' hSa' h1 h2 =>
           pair_nested (pair_of_lookup_start hti hab hSa)
             (pair_of_lookup_start hti hab' hSa') h1 h2⟩

/-- C5 witness: the program `"[]"`. -/
theorem claim_C5_jump_table_involution_witness :
    ({ code := [OpCode.LoopStart, OpCode.LoopEnd], jump_table := [(0, 1), (1, 0)] } : Program).jump_table.lookup 1 = some 0 ∧
    (∃ j, ({ code := [OpCode.LoopStart, OpCode.LoopEnd], jump_table := [(0, 1), (1, 0)] } : Program).jump_table.lookup 0 = some j) := by
  have h := claim_C5_jump_table_involution ("[]").toList false
    { code := [OpCode.LoopStart, OpCode.LoopEnd], jump_table := [(0, 1), (1, 0)] }
    (by rfl)
  exact ⟨h.1 0 1 (by rfl), h.2.1 0 (Or.inl (by rfl))⟩

/-- C7: for a successfully constructed program, both ends of a matched
bracket pair `(start, end)` expose `then_ip = start + 1` and
`else_ip = end + 1` (the latter absent exactly when `end + 1` is the program
length), and the VM dispatches a loop opcode to `else_ip` when the current
cell is zero and to `then_ip` otherwise. -/
theorem claim_C7_loop_step_targets (src : List Char) (rle : Bool)
    (p : Program) (start e : Nat) (h : Program.new src rle = Except.ok p)
    (hop : p.code.get? start = some OpCode.LoopStart)
    (hlk : p.jump_table.lookup start = some e) :
    p.get_step start = some ⟨OpCode.LoopStart, some (start + 1),
      if e + 1 < p.code.length then some (e + 1) else none⟩ ∧
    p.get_step e = some ⟨OpCode.LoopEnd, some (start + 1),
      if e + 1 < p.code.length then some (e + 1) else none⟩ ∧
    (∀ (s : VMState) (st : Step), s.program.get_step s.ip = some st →
      st.opcode = OpCode.LoopStart ∨ st.opcode = OpCode.LoopEnd →
      execute_step s =
        advance (if s.memory.getD s.data_ptr 0 = 0 then st.else_ip
                 else st.then_ip) s) := by
  obtain ⟨-, -, hti⟩ := program_new_ok h
  have hpair := pair_of_lookup_start hti hlk hop
  obtain ⟨hlt, hlen, -, hEop, -⟩ := hpair
  have hswap := lookup_swap hti hlk
  refine ⟨?_, ?_, ?_⟩
  · simp only [Program.get_step, hop, hlk]
    rw [if_pos (show start + 1 < p.code.length by omega)]
  · simp only [Program.get_step, hEop, hswap]
  · intro s st hst hbr
    rcases hbr with hS | hS <;> simp only [execute_step, hst, hS]

/-- C7 witness: the pair `(0, 1)` of the program `"[]"`, and a dispatch on a
zero cell. -/
theorem claim_C7_loop_step_targets_witness :
    ({ code := [OpCode.LoopStart, OpCode.LoopEnd],
       jump_table := [(0, 1), (1, 0)] } : Program).get_step 0 =
      some ⟨OpCode.LoopStart, some 1, none⟩ ∧
    ({ code := [OpCode.LoopStart, OpCode.LoopEnd],
       jump_table := [(0, 1), (1, 0)] } : Program).get_step 1 =
      some ⟨OpCode.LoopEnd, some 1, none⟩ := by
  have h := claim_C7_loop_step_targets ("[]").toList false
    { code := [OpCode.LoopStart, OpCode.LoopEnd], jump_table := [(0, 1), (1, 0)] }
    0 1 (by rfl) (by rfl) (by rfl)
  have h1 := h.1
  have h2 := h.2.1
  rw [if_neg (by decide)] at h1 h2
  exact ⟨h1, h2⟩

/-! Expansion structure lemmas. -/

theorem countSum_append (A B : List OpCode) :
    countSum (A ++ B) = countSum A + countSum B := by
  induction A with
  | nil => simp [countSum]
  | cons x r ih => simp [countSum, ih]; omega

theorem flatten_append (A B : List OpCode) :
    flatten (A ++ B) = flatten A ++ flatten B := by
  induction A with
  | nil => rfl
  | cons x r ih => simp [flatten, ih]

theorem expand_length (op : OpCode) : (expand op).length = op.count := by
  cases op <;> simp [expand, OpCode.count]

theorem flatten_length (q : List OpCode) : (flatten q).length = countSum q := by
  induction q with
  | nil => rfl
  | cons op rest ih => simp [flatten, countSum, expand_length, ih]

theorem take_succ_of_get? {C : List OpCode} {i : Nat} {op : OpCode}
    (h : C.get? i = some op) : C.take (i + 1) = C.take i ++ [op] := by
  rw [← seg_zero, ← seg_zero, seg_split _ (Nat.zero_le i) (Nat.le_succ i),
      seg_one h]

theorem amap_zero (q : List OpCode) : amap q 0 = 0 := rfl

theorem amap_cons_succ (op : OpCode) (rest : List OpCode) (j : Nat) :
    amap (op :: rest) (j + 1) = op.count + amap rest j := by
  unfold amap
  rw [List.take_succ_cons]
  rfl

theorem amap_succ {q : List OpCode} {i : Nat} {op : OpCode}
    (h : q.get? i = some op) : amap q (i + 1) = amap q i + op.count := by
  unfold amap
  rw [take_succ_of_get? h, countSum_append]
  simp [countSum]

theorem amap_mono (q : List OpCode) {i j : Nat} (h : i ≤ j) :
    amap q i ≤ amap q j := by
  unfold amap
  have : q.take j = q.take i ++ (q.drop i).take (j - i) := by
    rw [← List.take_add]
    congr 1
    omega
  rw [this, countSum_append]
  omega

theorem amap_sat (q : List OpCode) {i : Nat} (h : q.length ≤ i) :
    amap q i = countSum q := by
  unfold amap
  rw [List.take_of_length_le h]

theorem amap_strict (q : List OpCode) (hpos : ∀ op ∈ q, 1 ≤ op.count)
    {i j : Nat} (hij : i < j) (hj : j ≤ q.length) : amap q i < amap q j := by
  have hi : i < q.length := by omega
  rcases List.get?_eq_get hi with hget
  have hmem : q.get ⟨i, hi⟩ ∈ q := List.get_mem q i hi
  have hc := hpos _ hmem
  have h1 : amap q (i + 1) = amap q i + (q.get ⟨i, hi⟩).count := amap_succ hget
  have h2 : amap q (i + 1) ≤ amap q j := amap_mono q (by omega)
  omega

theorem amap_inj (q : List OpCode) (hpos : ∀ op ∈ q, 1 ≤ op.count)
    {i j : Nat} (hi : i ≤ q.length) (hj : j ≤ q.length)
    (h : amap q i = amap q j) : i = j := by
  rcases Nat.lt_trichotomy i j with hlt | heq | hlt
  · exact absurd h (Nat.ne_of_lt (amap_strict q hpos hlt hj))
  · exact heq
  · exact absurd h.symm (Nat.ne_of_lt (amap_strict q hpos hlt hi))

theorem replicate_get? {α : Type} (n j : Nat) (a : α) (h : j < n) :
    (List.replicate n a).get? j = some a := by
  simp [List.get?_eq_getElem?, List.getElem?_replicate, h]

theorem flatten_decomp {q : List OpCode} {i : Nat} {op : OpCode}
    (h : q.get? i = some op) :
    flatten q = flatten (q.take i) ++ (expand op ++ flatten (q.drop (i + 1))) := by
  conv_lhs => rw [← List.take_append_drop i q]
  rw [flatten_append]
  congr 1
  have hi : i < q.length := get?_lt_length h
  rw [List.drop_eq_get_cons hi]
  have : q.get ⟨i, hi⟩ = op := by
    rw [List.get?_eq_get hi] at h
    injection h
  rw [this]
  rfl

theorem flatten_take_length {q : List OpCode} (i : Nat) :
    (flatten (q.take i)).length = amap q i := by
  rw [flatten_length]
  rfl

theorem flatten_get {q : List OpCode} {i : Nat} {op : OpCode}
    (h : q.get? i = some op) {j : Nat} (hj : j < op.count) :
    (flatten q).get? (amap q i + j) = (expand op).get? j := by
  rw [flatten_decomp h]
  rw [List.get?_append_right (by rw [flatten_take_length]; omega)]
  rw [flatten_take_length]
  rw [List.get?_append (by rw [expand_length]; omega)]
  congr 1
  omega

/-! The RLE fold preserves the expanded opcode stream. -/

theorem rleStep_flatten (acc : List OpCode) (x : OpCode) :
    flatten ((rleStep acc x).reverse) = flatten acc.reverse ++ expand x := by
  unfold rleStep
  split <;>
    simp [List.reverse_cons, flatten_append, flatten, expand, List.replicate_succ']

theorem rleFold_flatten_aux (c : List OpCode) :
    ∀ acc, flatten ((List.foldl rleStep acc c).reverse) =
      flatten acc.reverse ++ flatten c := by
  induction c with
  | nil => intro acc; simp [flatten]
  | cons x rest ih =>
    intro acc
    rw [List.foldl_cons, ih (rleStep acc x), rleStep_flatten]
    simp [flatten]

theorem rleFold_flatten (c : List OpCode) : flatten (rleFold c) = flatten c := by
  unfold rleFold
  rw [rleFold_flatten_aux c []]
  rfl

theorem rleStep_pos {acc : List OpCode} {x : OpCode}
    (hacc : ∀ op ∈ acc, 1 ≤ op.count) (hx : 1 ≤ x.count) :
    ∀ op ∈ rleStep acc x, 1 ≤ op.count := by
  unfold rleStep
  split
  case _ count rest =>
    intro op hop
    rcases List.mem_cons.mp hop with rfl | hmem
    · simp [OpCode.count]
    · exact hacc op (List.mem_cons_of_mem _ hmem)
  case _ count rest =>
    intro op hop
    rcases List.mem_cons.mp hop with rfl | hmem
    · simp [OpCode.count]
    · exact hacc op (List.mem_cons_of_mem _ hmem)
  case _ count rest =>
    intro op hop
    rcases List.mem_cons.mp hop with rfl | hmem
    · simp [OpCode.count]
    · exact hacc op (List.mem_cons_of_mem _ hmem)
  case _ count rest =>
    intro op hop
    rcases List.mem_cons.mp hop with rfl | hmem
    · simp [OpCode.count]
    · exact hacc op (List.mem_cons_of_mem _ hmem)
  case _ =>
    intro op hop
    rcases List.mem_cons.mp hop with rfl | hmem
    · exact hx
    · exact hacc op hmem

theorem rleFold_pos_aux :
    ∀ (c acc : List OpCode),
    (∀ op ∈ c, 1 ≤ op.count) → (∀ op ∈ acc, 1 ≤ op.count) →
    ∀ op ∈ List.foldl rleStep acc c, 1 ≤ op.count := by
  intro c
  induction c with
  | nil => intro acc _ hacc; exact hacc
  | cons x rest ih =>
    intro acc hc hacc
    rw [List.foldl_cons]
    exact ih (rleStep acc x) (fun op hop => hc op (List.mem_cons_of_mem _ hop))
      (rleStep_pos hacc (hc x (List.mem_cons_self _ _)))

theorem convert_count_one {c : Char} {op : OpCode}
    (h : OpCode.convert c = some op) : op.count = 1 := by
  unfold OpCode.convert at h
  repeat' split at h
  all_goals try exact Option.noConfusion h
  all_goals (injection h with h1; subst h1; rfl)

theorem tokenize_count_one {s : List Char} {op : OpCode} (h : op ∈ tokenize s) :
    op.count = 1 := by
  unfold tokenize at h
  rcases List.mem_filterMap.mp h with ⟨c, -, hc⟩
  exact convert_count_one hc

theorem expand_unit {op : OpCode} (h : op.count = 1) : expand op = [op] := by
  cases op <;> simp [OpCode.count] at h <;> simp [expand] <;> simp [h]

theorem flatten_units {c : List OpCode} (h : ∀ op ∈ c, op.count = 1) :
    flatten c = c := by
  induction c with
  | nil => rfl
  | cons x rest ih =>
    show expand x ++ flatten rest = x :: rest
    rw [expand_unit (h x (List.mem_cons_self _ _)),
        ih (fun op hop => h op (List.mem_cons_of_mem _ hop))]
    rfl

theorem codeOf_flatten (src : List Char) :
    codeOf src false = flatten (codeOf src true) := by
  show tokenize src = flatten (rleFold (tokenize src))
  rw [rleFold_flatten, flatten_units (fun op hop => tokenize_count_one hop)]

theorem codeOf_pos (src : List Char) : ∀ op ∈ codeOf src true, 1 ≤ op.count := by
  show ∀ op ∈ rleFold (tokenize src), 1 ≤ op.count
  unfold rleFold
  intro op hop
  exact rleFold_pos_aux (tokenize src) []
    (fun op2 hop2 => le_of_eq (tokenize_count_one hop2).symm)
    (fun op2 hop2 => absurd hop2 (List.not_mem_nil _))
    op (List.mem_reverse.mp hop)

/-! The bracket scan commutes with expansion of the opcode stream. -/

theorem scanB_skip_nonbracket {u : OpCode} (h1 : u ≠ OpCode.LoopStart)
    (h2 : u ≠ OpCode.LoopEnd) (l : List OpCode) (n : Nat) (st : List Nat)
    (tb : List (Nat × Nat)) :
    scanB (u :: l) n st tb = scanB l (n + 1) st tb := by
  cases u <;> first | rfl | exact absurd rfl h1 | exact absurd rfl h2

theorem scanB_skip_replicate {u : OpCode} (h1 : u ≠ OpCode.LoopStart)
    (h2 : u ≠ OpCode.LoopEnd) (k : Nat) :
    ∀ (l : List OpCode) (n : Nat) (st : List Nat) (tb : List (Nat × Nat)),
    scanB (List.replicate k u ++ l) n st tb = scanB l (n + k) st tb := by
  induction k with
  | zero => intro l n st tb; simp
  | succ m ih =>
    intro l n st tb
    rw [List.replicate_succ, List.cons_append, scanB_skip_nonbracket h1 h2, ih]
    congr 1
    omega

theorem scanB_map (f : Nat → Nat) :
    ∀ (q : List OpCode) (i : Nat) (stack : List Nat) (table : List (Nat × Nat)),
    (∀ j, f (i + j) = f i + amap q j) →
    scanB (flatten q) (f i) (stack.map f) (mapPair f table) =
      (match scanB q i stack table with
       | Except.ok (st, tb) => Except.ok (st.map f, mapPair f tb)
       | Except.error (ProgramError.MissingBracket m) =>
           Except.error (ProgramError.MissingBracket (f m))) := by
  intro q
  induction q with
  | nil =>
    intro i stack table hf
    rfl
  | cons op rest ih =>
    intro i stack table hf
    have hf1 : f (i + 1) = f i + op.count := by
      have h1 := hf 1
      rw [amap_cons_succ op rest 0] at h1
      simpa [amap_zero] using h1
    have hfr : ∀ j, f ((i + 1) + j) = f (i + 1) + amap rest j := by
      intro j
      have h2 := hf (1 + j)
      rw [show (1 : Nat) + j = j + 1 by omega, amap_cons_succ op rest j] at h2
      have h3 : i + (j + 1) = i + 1 + j := by omega
      rw [h3] at h2
      omega
    cases op with
    | LoopStart =>
      have hred : scanB (flatten (OpCode.LoopStart :: rest)) (f i) (stack.map f)
          (mapPair f table)
          = scanB (flatten rest) (f i + 1) (f i :: stack.map f) (mapPair f table) := rfl
      rw [hred, show f i + 1 = f (i + 1) from hf1.symm]
      have h3 := ih (i + 1) (i :: stack) table hfr
      simp only [List.map_cons] at h3
      rw [h3]
      rfl
    | LoopEnd =>
      cases stack with
      | nil => rfl
      | cons s st2 =>
        have hred : scanB (flatten (OpCode.LoopEnd :: rest)) (f i)
            ((s :: st2).map f) (mapPair f table)
            = scanB (flatten rest) (f i + 1) (st2.map f)
                ((f s, f i) :: (f i, f s) :: mapPair f table) := rfl
        rw [hred, show f i + 1 = f (i + 1) from hf1.symm]
        have h3 := ih (i + 1) st2 ((s, i) :: (i, s) :: table) hfr
        simp only [mapPair, List.map_cons] at h3 ⊢
        rw [h3]
        rfl
    | IncDataPtr n =>
      have hred : flatten (OpCode.IncDataPtr n :: rest)
          = List.replicate n (OpCode.IncDataPtr 1) ++ flatten rest := rfl
      rw [hred, scanB_skip_replicate (by simp) (by simp) n (flatten rest) (f i),
          show f i + n = f (i + 1) from hf1.symm]
      rw [ih (i + 1) stack table hfr]
      rfl
    | DecDataPtr n =>
      have hred : flatten (OpCode.DecDataPtr n :: rest)
          = List.replicate n (OpCode.DecDataPtr 1) ++ flatten rest := rfl
      rw [hred, scanB_skip_replicate (by simp) (by simp) n (flatten rest) (f i),
          show f i + n = f (i + 1) from hf1.symm]
      rw [ih (i + 1) stack table hfr]
      rfl
    | IncValue n =>
      have hred : flatten (OpCode.IncValue n :: rest)
          = List.replicate n (OpCode.IncValue 1) ++ flatten rest := rfl
      rw [hred, scanB_skip_replicate (by simp) (by simp) n (flatten rest) (f i),
          show f i + n = f (i + 1) from hf1.symm]
      rw [ih (i + 1) stack table hfr]
      rfl
    | DecValue n =>
      have hred : flatten (OpCode.DecValue n :: rest)
          = List.replicate n (OpCode.DecValue 1) ++ flatten rest := rfl
      rw [hred, scanB_skip_replicate (by simp) (by simp) n (flatten rest) (f i),
          show f i + n = f (i + 1) from hf1.symm]
      rw [ih (i + 1) stack table hfr]
      rfl
    | Input =>
      have hred : scanB (flatten (OpCode.Input :: rest)) (f i) (stack.map f)
          (mapPair f table)
          = scanB (flatten rest) (f i + 1) (stack.map f) (mapPair f table) := rfl
      rw [hred, show f i + 1 = f (i + 1) from hf1.symm]
      rw [ih (i + 1) stack table hfr]
      rfl
    | Output =>
      have hred : scanB (flatten (OpCode.Output :: rest)) (f i) (stack.map f)
          (mapPair f table)
          = scanB (flatten rest) (f i + 1) (stack.map f) (mapPair f table) := rfl
      rw [hred, show f i + 1 = f (i + 1) from hf1.symm]
      rw [ih (i + 1) stack table hfr]
      rfl

theorem lookup_mapPair {T : List (Nat × Nat)} (f : Nat → Nat) {i j : Nat}
    (hinj : ∀ a b, (a, b) ∈ T → f a = f i → a = i)
    (h : T.lookup i = some j) :
    (mapPair f T).lookup (f i) = some (f j) := by
  induction T with
  | nil => exact Option.noConfusion h
  | cons p rest ih =>
    obtain ⟨a, b⟩ := p
    by_cases hia : i = a
    · subst hia
      simp only [List.lookup, beq_self_eq_true] at h
      injection h with h1
      subst h1
      simp [mapPair, List.lookup]
    · have hfa : (f i == f a) = false := by
        rw [beq_eq_false_iff_ne]
        intro heq
        exact hia ((hinj a b (List.mem_cons_self _ _) heq.symm).symm)
      simp only [List.lookup, beq_eq_false_iff_ne.mpr (Ne.intro hia)] at h
      simp only [mapPair, List.map_cons, List.lookup, hfa]
      exact ih (fun a2 b2 hm hf2 => hinj a2 b2 (List.mem_cons_of_mem _ hm) hf2) h

/-! Fetch lemmas for `Program::get_step`. -/

theorem get_step_none {p : Program} {i : Nat} (h : p.code.get? i = none) :
    p.get_step i = none := by
  rw [List.get?_eq_getElem?] at h
  simp [Program.get_step, h]

theorem get_step_simple {p : Program} {i : Nat} {op : OpCode}
    (h : p.code.get? i = some op)
    (h1 : op ≠ OpCode.LoopStart) (h2 : op ≠ OpCode.LoopEnd) :
    p.get_step i = some ⟨op,
      if i + 1 < p.code.length then some (i + 1) else none, none⟩ := by
  rw [List.get?_eq_getElem?] at h
  cases op <;> first
    | exact absurd rfl h1
    | exact absurd rfl h2
    | simp [Program.get_step, h]

theorem get_step_loopstart {p : Program} {i e : Nat}
    (h : p.code.get? i = some OpCode.LoopStart)
    (hl : p.jump_table.lookup i = some e) :
    p.get_step i = some ⟨OpCode.LoopStart,
      if i + 1 < p.code.length then some (i + 1) else none,
      if e + 1 < p.code.length then some (e + 1) else none⟩ := by
  rw [List.get?_eq_getElem?] at h
  simp [Program.get_step, h, hl]

theorem get_step_loopend {p : Program} {i st : Nat}
    (h : p.code.get? i = some OpCode.LoopEnd)
    (hl : p.jump_table.lookup i = some st) :
    p.get_step i = some ⟨OpCode.LoopEnd, some (st + 1),
      if i + 1 < p.code.length then some (i + 1) else none⟩ := by
  rw [List.get?_eq_getElem?] at h
  simp [Program.get_step, h, hl]

theorem get_step_bracket_none_start {p : Program} {i : Nat}
    (h : p.code.get? i = some OpCode.LoopStart)
    (hl : p.jump_table.lookup i = none) :
    p.get_step i = none := by
  rw [List.get?_eq_getElem?] at h
  simp [Program.get_step, h, hl]

theorem get_step_bracket_none_end {p : Program} {i : Nat}
    (h : p.code.get? i = some OpCode.LoopEnd)
    (hl : p.jump_table.lookup i = none) :
    p.get_step i = none := by
  rw [List.get?_eq_getElem?] at h
  simp [Program.get_step, h, hl]

/-! Execution of a block of identical unit opcodes by the expanded machine. -/

theorem set_set_getD (m : List Nat) (d v w : Nat) :
    (m.set d v).set d (((m.set d v).getD d 0 + w) % 256) = m.set d ((v + w) % 256) := by
  by_cases hd : d < m.length
  · have hg : (m.set d v).getD d 0 = v := by
      simp [List.getD_eq_getElem?_getD, List.getElem?_set_self, hd]
    rw [hg, List.set_set]
  · have h2 : ∀ u, m.set d u = m := fun u => List.set_eq_of_length_le (by omega)
    rw [h2, h2, h2]

theorem steps_succ_of_ok_false {n : Nat} {s s1 : VMState}
    (h : execute_step s = Except.ok (false, s1)) :
    steps (n + 1) s = steps n s1 := by
  show (match execute_step s with
        | Except.error es => Except.error es
        | Except.ok (true, s') => Except.ok (true, s')
        | Except.ok (false, s') => steps n s') = _
  rw [h]

theorem steps_succ_of_ok_true {n : Nat} {s s1 : VMState}
    (h : execute_step s = Except.ok (true, s1)) :
    steps (n + 1) s = Except.ok (true, s1) := by
  show (match execute_step s with
        | Except.error es => Except.error es
        | Except.ok (true, s') => Except.ok (true, s')
        | Except.ok (false, s') => steps n s') = _
  rw [h]

theorem steps_succ_of_error {n : Nat} {s : VMState} {es : EvalError × VMState}
    (h : execute_step s = Except.error es) :
    steps (n + 1) s = Except.error es := by
  show (match execute_step s with
        | Except.error es => Except.error es
        | Except.ok (true, s') => Except.ok (true, s')
        | Except.ok (false, s') => steps n s') = _
  rw [h]

theorem incValue_block :
    ∀ (k : Nat), 1 ≤ k →
    ∀ (s : VMState),
    (∀ j, j < k → s.program.code.get? (s.ip + j) = some (OpCode.IncValue 1)) →
    s.ip + k ≤ s.program.code.length →
    (s.ip + k < s.program.code.length →
      steps k s = Except.ok (false,
        { ip := s.ip + k, data_ptr := s.data_ptr,
          memory := s.memory.set s.data_ptr
            ((s.memory.getD s.data_ptr 0 + k % 256) % 256),
          program := s.program, stdin := s.stdin, stdout := s.stdout })) ∧
    (s.ip + k = s.program.code.length →
      ∃ s', steps k s = Except.ok (true, s') ∧ s'.stdout = s.stdout) := by
  intro k
  induction k with
  | zero => intro h; omega
  | succ k ih =>
    intro _ s hcode hle
    have h0 := hcode 0 (by omega)
    simp only [Nat.add_zero] at h0
    have hget := get_step_simple h0 (by simp) (by simp)
    cases Nat.eq_zero_or_pos k with
    | inl hk0 =>
      subst hk0
      constructor
      · intro hlt
        have hcond : s.ip + 1 < s.program.code.length := by omega
        have hstep1 : execute_step s = Except.ok (false,
            { ip := s.ip + 1, data_ptr := s.data_ptr,
              memory := s.memory.set s.data_ptr
                ((s.memory.getD s.data_ptr 0 + 1 % 256) % 256),
              program := s.program, stdin := s.stdin, stdout := s.stdout }) := by
          simp only [execute_step, hget, if_pos hcond, advance]
        rw [steps_succ_of_ok_false hstep1]
        rfl
      · intro heq
        have hcond : ¬ (s.ip + 1 < s.program.code.length) := by omega
        have hstep1 : execute_step s = Except.ok (true,
            { ip := s.ip, data_ptr := s.data_ptr,
              memory := s.memory.set s.data_ptr
                ((s.memory.getD s.data_ptr 0 + 1 % 256) % 256),
              program := s.program, stdin := s.stdin, stdout := s.stdout }) := by
          simp only [execute_step, hget, if_neg hcond, advance]
        exact ⟨_, steps_succ_of_ok_true hstep1, rfl⟩
    | inr hkpos =>
      have hcond : s.ip + 1 < s.program.code.length := by omega
      have hstep1 : execute_step s = Except.ok (false,
          { ip := s.ip + 1, data_ptr := s.data_ptr,
            memory := s.memory.set s.data_ptr
              ((s.memory.getD s.data_ptr 0 + 1 % 256) % 256),
            program := s.program, stdin := s.stdin, stdout := s.stdout }) := by
        simp only [execute_step, hget, if_pos hcond, advance]
      have hred := steps_succ_of_ok_false (n := k) hstep1
      have ihm := ih hkpos
        { ip := s.ip + 1, data_ptr := s.data_ptr,
          memory := s.memory.set s.data_ptr
            ((s.memory.getD s.data_ptr 0 + 1 % 256) % 256),
          program := s.program, stdin := s.stdin, stdout := s.stdout }
        (by
          intro j hj
          have h2 := hcode (j + 1) (by omega)
          have h3 : s.ip + (j + 1) = s.ip + 1 + j := by omega
          rw [h3] at h2
          exact h2)
        (by
          show s.ip + 1 + k ≤ s.program.code.length
          omega)
      constructor
      · intro hlt
        rw [hred, ihm.1 (by show s.ip + 1 + k < s.program.code.length; omega)]
        rw [show s.ip + 1 + k = s.ip + (k + 1) from by omega, set_set_getD,
            show ((s.memory.getD s.data_ptr 0 + 1 % 256) % 256 + k % 256) % 256
              = (s.memory.getD s.data_ptr 0 + (k + 1) % 256) % 256 from by omega]
      · intro heq
        obtain ⟨s', hs', hout⟩ := ihm.2
          (by show s.ip + 1 + k = s.program.code.length; omega)
        exact ⟨s', by rw [hred]; exact hs', hout⟩

theorem decValue_block :
    ∀ (k : Nat), 1 ≤ k →
    ∀ (s : VMState),
    (∀ j, j < k → s.program.code.get? (s.ip + j) = some (OpCode.DecValue 1)) →
    s.ip + k ≤ s.program.code.length →
    (s.ip + k < s.program.code.length →
      steps k s = Except.ok (false,
        { ip := s.ip + k, data_ptr := s.data_ptr,
          memory := s.memory.set s.data_ptr
            ((s.memory.getD s.data_ptr 0 + (256 - k % 256)) % 256),
          program := s.program, stdin := s.stdin, stdout := s.stdout })) ∧
    (s.ip + k = s.program.code.length →
      ∃ s', steps k s = Except.ok (true, s') ∧ s'.stdout = s.stdout) := by
  intro k
  induction k with
  | zero => intro h; omega
  | succ k ih =>
    intro _ s hcode hle
    have h0 := hcode 0 (by omega)
    simp only [Nat.add_zero] at h0
    have hget := get_step_simple h0 (by simp) (by simp)
    cases Nat.eq_zero_or_pos k with
    | inl hk0 =>
      subst hk0
      constructor
      · intro hlt
        have hcond : s.ip + 1 < s.program.code.length := by omega
        have hstep1 : execute_step s = Except.ok (false,
            { ip := s.ip + 1, data_ptr := s.data_ptr,
              memory := s.memory.set s.data_ptr
                ((s.memory.getD s.data_ptr 0 + (256 - 1 % 256)) % 256),
              program := s.program, stdin := s.stdin, stdout := s.stdout }) := by
          simp only [execute_step, hget, if_pos hcond, advance]
        rw [steps_succ_of_ok_false hstep1]
        rfl
      · intro heq
        have hcond : ¬ (s.ip + 1 < s.program.code.length) := by omega
        have hstep1 : execute_step s = Except.ok (true,
            { ip := s.ip, data_ptr := s.data_ptr,
              memory := s.memory.set s.data_ptr
                ((s.memory.getD s.data_ptr 0 + (256 - 1 % 256)) % 256),
              program := s.program, stdin := s.stdin, stdout := s.stdout }) := by
          simp only [execute_step, hget, if_neg hcond, advance]
        exact ⟨_, steps_succ_of_ok_true hstep1, rfl⟩
    | inr hkpos =>
      have hcond : s.ip + 1 < s.program.code.length := by omega
      have hstep1 : execute_step s = Except.ok (false,
          { ip := s.ip + 1, data_ptr := s.data_ptr,
            memory := s.memory.set s.data_ptr
              ((s.memory.getD s.data_ptr 0 + (256 - 1 % 256)) % 256),
            program := s.program, stdin := s.stdin, stdout := s.stdout }) := by
        simp only [execute_step, hget, if_pos hcond, advance]
      have hred := steps_succ_of_ok_false (n := k) hstep1
      have ihm := ih hkpos
        { ip := s.ip + 1, data_ptr := s.data_ptr,
          memory := s.memory.set s.data_ptr
            ((s.memory.getD s.data_ptr 0 + (256 - 1 % 256)) % 256),
          program := s.program, stdin := s.stdin, stdout := s.stdout }
        (by
          intro j hj
          have h2 := hcode (j + 1) (by omega)
          have h3 : s.ip + (j + 1) = s.ip + 1 + j := by omega
          rw [h3] at h2
          exact h2)
        (by
          show s.ip + 1 + k ≤ s.program.code.length
          omega)
      constructor
      · intro hlt
        rw [hred, ihm.1 (by show s.ip + 1 + k < s.program.code.length; omega)]
        rw [show s.ip + 1 + k = s.ip + (k + 1) from by omega, set_set_getD,
            show ((s.memory.getD s.data_ptr 0 + (256 - 1 % 256)) % 256 + (256 - k % 256)) % 256
              = (s.memory.getD s.data_ptr 0 + (256 - (k + 1) % 256)) % 256 from by omega]
      · intro heq
        obtain ⟨s', hs', hout⟩ := ihm.2
          (by show s.ip + 1 + k = s.program.code.length; omega)
        exact ⟨s', by rw [hred]; exact hs', hout⟩

theorem incDataPtr_block :
    ∀ (k : Nat), 1 ≤ k →
    ∀ (s : VMState),
    (∀ j, j < k → s.program.code.get? (s.ip + j) = some (OpCode.IncDataPtr 1)) →
    s.ip + k ≤ s.program.code.length →
    (s.data_ptr + k < s.memory.length →
      (s.ip + k < s.program.code.length →
        steps k s = Except.ok (false,
          { ip := s.ip + k, data_ptr := s.data_ptr + k, memory := s.memory,
            program := s.program, stdin := s.stdin, stdout := s.stdout })) ∧
      (s.ip + k = s.program.code.length →
        ∃ s', steps k s = Except.ok (true, s') ∧ s'.stdout = s.stdout)) ∧
    (s.memory.length ≤ s.data_ptr + k →
      ∃ n s', steps (n + 1) s =
          Except.error (EvalError.InvalidInstructionPointer, s') ∧
        s'.stdout = s.stdout) := by
  intro k
  induction k with
  | zero => intro h; omega
  | succ k ih =>
    intro _ s hcode hle
    have h0 := hcode 0 (by omega)
    simp only [Nat.add_zero] at h0
    have hget := get_step_simple h0 (by simp) (by simp)
    cases Nat.eq_zero_or_pos k with
    | inl hk0 =>
      subst hk0
      constructor
      · intro hmem
        have hguard : ¬ (s.data_ptr + 1 ≥ s.memory.length) := by omega
        constructor
        · intro hlt
          have hcond : s.ip + 1 < s.program.code.length := by omega
          have hstep1 : execute_step s = Except.ok (false,
              { ip := s.ip + 1, data_ptr := s.data_ptr + 1, memory := s.memory,
                program := s.program, stdin := s.stdin, stdout := s.stdout }) := by
            simp only [execute_step, hget, if_neg hguard, if_pos hcond, advance]
          rw [steps_succ_of_ok_false hstep1]
          rfl
        · intro heq
          have hcond : ¬ (s.ip + 1 < s.program.code.length) := by omega
          have hstep1 : execute_step s = Except.ok (true,
              { ip := s.ip, data_ptr := s.data_ptr + 1, memory := s.memory,
                program := s.program, stdin := s.stdin, stdout := s.stdout }) := by
            simp only [execute_step, hget, if_neg hguard, if_neg hcond, advance]
          exact ⟨_, steps_succ_of_ok_true hstep1, rfl⟩
      · intro hmem
        have hguard : s.data_ptr + 1 ≥ s.memory.length := by omega
        have hstep1 : execute_step s =
            Except.error (EvalError.InvalidInstructionPointer, s) := by
          simp only [execute_step, hget, if_pos hguard]
        exact ⟨0, s, steps_succ_of_error hstep1, rfl⟩
    | inr hkpos =>
      have hcond : s.ip + 1 < s.program.code.length := by omega
      by_cases hguard : s.data_ptr + 1 ≥ s.memory.length
      · refine ⟨fun hmem => absurd hmem (by omega), fun _ => ?_⟩
        have hstep1 : execute_step s =
            Except.error (EvalError.InvalidInstructionPointer, s) := by
          simp only [execute_step, hget, if_pos hguard]
        exact ⟨0, s, steps_succ_of_error hstep1, rfl⟩
      · have hstep1 : execute_step s = Except.ok (false,
            { ip := s.ip + 1, data_ptr := s.data_ptr + 1, memory := s.memory,
              program := s.program, stdin := s.stdin, stdout := s.stdout }) := by
          simp only [execute_step, hget, if_neg hguard, if_pos hcond, advance]
        have hred := steps_succ_of_ok_false (n := k) hstep1
        have ihm := ih hkpos
          { ip := s.ip + 1, data_ptr := s.data_ptr + 1, memory := s.memory,
            program := s.program, stdin := s.stdin, stdout := s.stdout }
          (by
            intro j hj
            have h2 := hcode (j + 1) (by omega)
            have h3 : s.ip + (j + 1) = s.ip + 1 + j := by omega
            rw [h3] at h2
            exact h2)
          (by
            show s.ip + 1 + k ≤ s.program.code.length
            omega)
        constructor
        · intro hmem
          have ihs := ihm.1 (by show s.data_ptr + 1 + k < s.memory.length; omega)
          constructor
          · intro hlt
            rw [hred, ihs.1 (by show s.ip + 1 + k < s.program.code.length; omega)]
            rw [show s.ip + 1 + k = s.ip + (k + 1) from by omega,
                show s.data_ptr + 1 + k = s.data_ptr + (k + 1) from by omega]
          · intro heq
            obtain ⟨s', hs', hout⟩ := ihs.2
              (by show s.ip + 1 + k = s.program.code.length; omega)
            exact ⟨s', by rw [hred]; exact hs', hout⟩
        · intro hmem
          obtain ⟨n, s', hs', hout⟩ := ihm.2
            (by show s.memory.length ≤ s.data_ptr + 1 + k; omega)
          refine ⟨n + 1, s', ?_, hout⟩
          rw [show n + 1 + 1 = n + 1 + 1 from rfl]
          rw [steps_succ_of_ok_false (n := n + 1) hstep1]
          exact hs'

theorem decDataPtr_block :
    ∀ (k : Nat), 1 ≤ k →
    ∀ (s : VMState),
    (∀ j, j < k → s.program.code.get? (s.ip + j) = some (OpCode.DecDataPtr 1)) →
    s.ip + k ≤ s.program.code.length →
    (k ≤ s.data_ptr →
      (s.ip + k < s.program.code.length →
        steps k s = Except.ok (false,
          { ip := s.ip + k, data_ptr := s.data_ptr - k, memory := s.memory,
            program := s.program, stdin := s.stdin, stdout := s.stdout })) ∧
      (s.ip + k = s.program.code.length →
        ∃ s', steps k s = Except.ok (true, s') ∧ s'.stdout = s.stdout)) ∧
    (s.data_ptr < k →
      ∃ n s', steps (n + 1) s =
          Except.error (EvalError.MemoryOutOfBounds, s') ∧
        s'.stdout = s.stdout) := by
  intro k
  induction k with
  | zero => intro h; omega
  | succ k ih =>
    intro _ s hcode hle
    have h0 := hcode 0 (by omega)
    simp only [Nat.add_zero] at h0
    have hget := get_step_simple h0 (by simp) (by simp)
    cases Nat.eq_zero_or_pos k with
    | inl hk0 =>
      subst hk0
      constructor
      · intro hd
        have hguard : ¬ (s.data_ptr < 1) := by omega
        constructor
        · intro hlt
          have hcond : s.ip + 1 < s.program.code.length := by omega
          have hstep1 : execute_step s = Except.ok (false,
              { ip := s.ip + 1, data_ptr := s.data_ptr - 1, memory := s.memory,
                program := s.program, stdin := s.stdin, stdout := s.stdout }) := by
            simp only [execute_step, hget, if_neg hguard, if_pos hcond, advance]
          rw [steps_succ_of_ok_false hstep1]
          rfl
        · intro heq
          have hcond : ¬ (s.ip + 1 < s.program.code.length) := by omega
          have hstep1 : execute_step s = Except.ok (true,
              { ip := s.ip, data_ptr := s.data_ptr - 1, memory := s.memory,
                program := s.program, stdin := s.stdin, stdout := s.stdout }) := by
            simp only [execute_step, hget, if_neg hguard, if_neg hcond, advance]
          exact ⟨_, steps_succ_of_ok_true hstep1, rfl⟩
      · intro hd
        have hguard : s.data_ptr < 1 := by omega
        have hstep1 : execute_step s =
            Except.error (EvalError.MemoryOutOfBounds, s) := by
          simp only [execute_step, hget, if_pos hguard]
        exact ⟨0, s, steps_succ_of_error hstep1, rfl⟩
    | inr hkpos =>
      have hcond : s.ip + 1 < s.program.code.length := by omega
      by_cases hguard : s.data_ptr < 1
      · refine ⟨fun hd => absurd hd (by omega), fun _ => ?_⟩
        have hstep1 : execute_step s =
            Except.error (EvalError.MemoryOutOfBounds, s) := by
          simp only [execute_step, hget, if_pos hguard]
        exact ⟨0, s, steps_succ_of_error hstep1, rfl⟩
      · have hstep1 : execute_step s = Except.ok (false,
            { ip := s.ip + 1, data_ptr := s.data_ptr - 1, memory := s.memory,
              program := s.program, stdin := s.stdin, stdout := s.stdout }) := by
          simp only [execute_step, hget, if_neg hguard, if_pos hcond, advance]
        have hred := steps_succ_of_ok_false (n := k) hstep1
        have ihm := ih hkpos
          { ip := s.ip + 1, data_ptr := s.data_ptr - 1, memory := s.memory,
            program := s.program, stdin := s.stdin, stdout := s.stdout }
          (by
            intro j hj
            have h2 := hcode (j + 1) (by omega)
            have h3 : s.ip + (j + 1) = s.ip + 1 + j := by omega
            rw [h3] at h2
            exact h2)
          (by
            show s.ip + 1 + k ≤ s.program.code.length
            omega)
        constructor
        · intro hd
          have ihs := ihm.1 (by show k ≤ s.data_ptr - 1; omega)
          constructor
          · intro hlt
            rw [hred, ihs.1 (by show s.ip + 1 + k < s.program.code.length; omega)]
            rw [show s.ip + 1 + k = s.ip + (k + 1) from by omega,
                show s.data_ptr - 1 - k = s.data_ptr - (k + 1) from by omega]
          · intro heq
            obtain ⟨s', hs', hout⟩ := ihs.2
              (by show s.ip + 1 + k = s.program.code.length; omega)
            exact ⟨s', by rw [hred]; exact hs', hout⟩
        · intro hd
          obtain ⟨n, s', hs', hout⟩ := ihm.2
            (by show s.data_ptr - 1 < k; omega)
          refine ⟨n + 1, s', ?_, hout⟩
          rw [steps_succ_of_ok_false (n := n + 1) hstep1]
          exact hs'

theorem scanB_map_ok {q : List OpCode} {i : Nat} {stack st2 : List Nat}
    {table tb2 : List (Nat × Nat)} (f : Nat → Nat)
    (hf : ∀ j, f (i + j) = f i + amap q j)
    (h : scanB q i stack table = Except.ok (st2, tb2)) :
    scanB (flatten q) (f i) (stack.map f) (mapPair f table) =
      Except.ok (st2.map f, mapPair f tb2) := by
  have hm := scanB_map f q i stack table hf
  rw [h] at hm
  exact hm

/-- When both constructions succeed, the raw program is the expansion of the
RLE program and its jump table is the RLE table with both components pushed
through the prefix-sum map. -/
theorem new_rle_raw {src : List Char} {p1 p2 : Program}
    (h1 : Program.new src true = Except.ok p1)
    (h2 : Program.new src false = Except.ok p2) :
    p2.code = flatten p1.code ∧
    p2.jump_table = mapPair (amap p1.code) p1.jump_table := by
  unfold Program.new at h1 h2
  rcases hscan1 : scanB (codeOf src true) 0 [] [] with ⟨e⟩ | ⟨stack1, T1⟩ <;>
    rw [hscan1] at h1
  · exact absurd h1 (by simp)
  cases stack1 with
  | cons j js => exact absurd h1 (by simp)
  | nil =>
    injection h1 with h1e
    have hmap := scanB_map_ok (amap (codeOf src true))
      (by intro j; simp [amap_zero]) hscan1
    rw [← codeOf_flatten src] at hmap
    simp only [List.map_nil] at hmap
    have hz : amap (codeOf src true) 0 = 0 := rfl
    rw [hz] at hmap
    have hnil : mapPair (amap (codeOf src true)) [] = [] := rfl
    rw [hnil] at hmap
    rw [hmap] at h2
    injection h2 with h2e
    subst h1e h2e
    exact ⟨codeOf_flatten src, rfl⟩

/-! Utilities tying the prefix-sum map to the expanded code. -/

theorem amap_len (q : List OpCode) : amap q q.length = countSum q :=
  amap_sat q (le_refl _)

theorem flatten_len_eq (q : List OpCode) :
    (flatten q).length = amap q q.length := by
  rw [flatten_length, amap_len]

theorem amap_le_flatten (q : List OpCode) {i : Nat} (hi : i ≤ q.length) :
    amap q i ≤ (flatten q).length := by
  rw [flatten_len_eq]
  exact amap_mono q hi

theorem amap_lt_iff (q : List OpCode) (hpos : ∀ op ∈ q, 1 ≤ op.count)
    {i : Nat} (hi : i ≤ q.length) :
    amap q i < (flatten q).length ↔ i < q.length := by
  rw [flatten_len_eq]
  constructor
  · intro h
    by_contra hcon
    push_neg at hcon
    rw [amap_sat q hcon, ← amap_len] at h
    omega
  · intro h
    exact amap_strict q hpos h (le_refl _)

theorem count_pos_at {q : List OpCode} (hpos : ∀ op ∈ q, 1 ≤ op.count)
    {i : Nat} {op : OpCode} (h : q.get? i = some op) : 1 ≤ op.count :=
  hpos op (List.get?_mem h)

theorem lookup_transfer {q : List OpCode} {T1 : List (Nat × Nat)}
    (hpos : ∀ op ∈ q, 1 ≤ op.count)
    (hti : TableInv q q.length [] T1) {i e : Nat} (hi : i ≤ q.length)
    (h : T1.lookup i = some e) :
    (mapPair (amap q) T1).lookup (amap q i) = some (amap q e) := by
  apply lookup_mapPair
  · intro a b hm hfa
    have hk := table_keys_lt hti a b hm
    exact amap_inj q hpos (by omega) hi hfa
  · exact h

/-! Per-opcode cases of the simulation step. -/

theorem sim_none {q : List OpCode} {T1 : List (Nat × Nat)} {s1 s2 : VMState}
    (hrel : SimRel q T1 s1 s2) (hi : q.length ≤ s1.ip) :
    StepMatch q T1 s1 s2 := by
  obtain ⟨hp1, hp2, hip, hd, hm, hsin, hsout⟩ := hrel
  have hg1 : s1.program.get_step s1.ip = none := by
    rw [hp1]
    exact get_step_none (List.get?_eq_none.mpr hi)
  have hx1 : execute_step s1 = Except.ok (true, s1) := by
    unfold execute_step
    rw [hg1]
  have hlen2 : (flatten q).length ≤ s2.ip := by
    rw [hip, amap_sat q hi, flatten_length]
  have hg2 : s2.program.get_step s2.ip = none := by
    rw [hp2]
    exact get_step_none (List.get?_eq_none.mpr hlen2)
  have hx2 : execute_step s2 = Except.ok (true, s2) := by
    unfold execute_step
    rw [hg2]
  refine ⟨?_, ?_, ?_⟩
  · intro e s1' h
    rw [hx1] at h
    exact absurd h (by simp)
  · intro s1' h
    rw [hx1] at h
    injection h with h1
    injection h1 with h2 h3
    subst h3
    exact ⟨0, s2, steps_succ_of_ok_true hx2, hsout⟩
  · intro s1' h
    rw [hx1] at h
    injection h with h1
    injection h1 with h2 h3
    exact absurd h2 (by simp)

theorem sim_output {q : List OpCode} {T1 : List (Nat × Nat)} {s1 s2 : VMState}
    (hpos : ∀ op ∈ q, 1 ≤ op.count)
    (hrel : SimRel q T1 s1 s2)
    (hq : q.get? s1.ip = some OpCode.Output) (hlt : s1.ip < q.length) :
    StepMatch q T1 s1 s2 := by
  obtain ⟨hp1, hp2, hip, hd, hm, hsin, hsout⟩ := hrel
  have hg1 : s1.program.get_step s1.ip = some ⟨OpCode.Output,
      if s1.ip + 1 < q.length then some (s1.ip + 1) else none, none⟩ := by
    rw [hp1]
    exact get_step_simple hq (by simp) (by simp)
  have hq2 : (flatten q).get? (amap q s1.ip + 0) =
      some OpCode.Output := by
    rw [flatten_get hq (by simp [OpCode.count])]
    rfl
  rw [Nat.add_zero] at hq2
  have hg2 : s2.program.get_step s2.ip = some ⟨OpCode.Output,
      if s2.ip + 1 < (flatten q).length then some (s2.ip + 1) else none, none⟩ := by
    rw [hp2, hip]
    exact get_step_simple hq2 (by simp) (by simp)
  have hsucc : amap q (s1.ip + 1) = amap q s1.ip + 1 := amap_succ hq
  have hiff : (s2.ip + 1 < (flatten q).length) ↔ (s1.ip + 1 < q.length) := by
    rw [hip, ← hsucc]
    exact amap_lt_iff q hpos (by omega)
  refine ⟨?_, ?_, ?_⟩
  · intro e s1' h
    by_cases hc : s1.ip + 1 < q.length <;>
      simp only [execute_step, hg1, if_pos, if_neg, hc, if_true, if_false,
        advance] at h <;>
      exact absurd h (by simp)
  · intro s1' h
    by_cases hc : s1.ip + 1 < q.length
    · simp only [execute_step, hg1, if_pos hc, advance] at h
      exact absurd h (by simp)
    · simp only [execute_step, hg1, if_neg hc, advance] at h
      injection h with h1
      injection h1 with h2 h3
      subst h3
      have hx2 : execute_step s2 = Except.ok (true,
          { s2 with stdout := s2.stdout ++
              [Char.ofNat (s2.memory.getD s2.data_ptr 0)] }) := by
        simp only [execute_step, hg2, if_neg (fun ha => hc (hiff.mp ha)), advance]
      refine ⟨0, _, steps_succ_of_ok_true hx2, ?_⟩
      show s2.stdout ++ _ = s1.stdout ++ _
      rw [hsout, hm, hd]
  · intro s1' h
    by_cases hc : s1.ip + 1 < q.length
    · simp only [execute_step, hg1, if_pos hc, advance] at h
      injection h with h1
      injection h1 with h2 h3
      subst h3
      have hx2 : execute_step s2 = Except.ok (false,
          { ip := s2.ip + 1, data_ptr := s2.data_ptr, memory := s2.memory,
            program := s2.program, stdin := s2.stdin,
            stdout := s2.stdout ++
              [Char.ofNat (s2.memory.getD s2.data_ptr 0)] }) := by
        simp only [execute_step, hg2, if_pos (hiff.mpr hc), advance]
      refine ⟨0, ⟨s2.ip + 1, s2.data_ptr, s2.memory, s2.program, s2.stdin, s2.stdout ++ [Char.ofNat (s2.memory.getD s2.data_ptr 0)]⟩,
        by rw [steps_succ_of_ok_false hx2]; rfl, ?_, ?_, ?_, ?_, ?_, ?_, ?_⟩
      · exact hp1
      · exact hp2
      · show s2.ip + 1 = amap q (s1.ip + 1)
        rw [hip, hsucc]
      · exact hd
      · exact hm
      · exact hsin
      · show s2.stdout ++ _ = s1.stdout ++ _
        rw [hsout, hm, hd]
    · simp only [execute_step, hg1, if_neg hc, advance] at h
      exact absurd h (by simp)

theorem sim_input {q : List OpCode} {T1 : List (Nat × Nat)} {s1 s2 : VMState}
    (hpos : ∀ op ∈ q, 1 ≤ op.count)
    (hrel : SimRel q T1 s1 s2)
    (hq : q.get? s1.ip = some OpCode.Input) (hlt : s1.ip < q.length) :
    StepMatch q T1 s1 s2 := by
  obtain ⟨hp1, hp2, hip, hd, hm, hsin, hsout⟩ := hrel
  have hg1 : s1.program.get_step s1.ip = some ⟨OpCode.Input,
      if s1.ip + 1 < q.length then some (s1.ip + 1) else none, none⟩ := by
    rw [hp1]
    exact get_step_simple hq (by simp) (by simp)
  have hq2 : (flatten q).get? (amap q s1.ip + 0) = some OpCode.Input := by
    rw [flatten_get hq (by simp [OpCode.count])]
    rfl
  rw [Nat.add_zero] at hq2
  have hg2 : s2.program.get_step s2.ip = some ⟨OpCode.Input,
      if s2.ip + 1 < (flatten q).length then some (s2.ip + 1) else none, none⟩ := by
    rw [hp2, hip]
    exact get_step_simple hq2 (by simp) (by simp)
  have hsucc : amap q (s1.ip + 1) = amap q s1.ip + 1 := amap_succ hq
  have hiff : (s2.ip + 1 < (flatten q).length) ↔ (s1.ip + 1 < q.length) := by
    rw [hip, ← hsucc]
    exact amap_lt_iff q hpos (by omega)
  rcases hstdin : s1.stdin with _ | ⟨r0, rest⟩
  case nil =>
    refine ⟨?_, ?_, ?_⟩
    · intro e s1' h
      by_cases hc : s1.ip + 1 < q.length <;>
        simp only [execute_step, hg1, hstdin, if_pos, if_neg, hc, if_true,
          if_false, advance] at h <;>
        exact absurd h (by simp)
    · intro s1' h
      by_cases hc : s1.ip + 1 < q.length
      · simp only [execute_step, hg1, hstdin, if_pos hc, advance] at h
        exact absurd h (by simp)
      · simp only [execute_step, hg1, hstdin, if_neg hc, advance] at h
        injection h with h1
        injection h1 with h2 h3
        subst h3
        have hx2 : execute_step s2 = Except.ok (true, s2) := by
          simp only [execute_step, hg2, hsin, hstdin,
            if_neg (fun ha => hc (hiff.mp ha)), advance]
        exact ⟨0, s2, steps_succ_of_ok_true hx2, hsout⟩
    · intro s1' h
      by_cases hc : s1.ip + 1 < q.length
      · simp only [execute_step, hg1, hstdin, if_pos hc, advance] at h
        injection h with h1
        injection h1 with h2 h3
        subst h3
        have hx2 : execute_step s2 = Except.ok (false,
            { s2 with ip := s2.ip + 1 }) := by
          simp only [execute_step, hg2, hsin, hstdin, if_pos (hiff.mpr hc), advance]
        refine ⟨0, { s2 with ip := s2.ip + 1 },
          by rw [steps_succ_of_ok_false hx2]; rfl, hp1, hp2, ?_, hd, hm, ?_, hsout⟩
        · show s2.ip + 1 = amap q (s1.ip + 1)
          rw [hip, hsucc]
        · exact hsin.trans hstdin
      · simp only [execute_step, hg1, hstdin, if_neg hc, advance] at h
        exact absurd h (by simp)
  case cons =>
    cases r0 with
    | ioerr =>
      refine ⟨?_, ?_, ?_⟩
      · intro e s1' h
        simp only [execute_step, hg1, hstdin] at h
        injection h with h1
        injection h1 with h2 h3
        subst h2 h3
        have hx2 : execute_step s2 = Except.error (EvalError.IOError,
            { s2 with stdin := rest }) := by
          simp only [execute_step, hg2, hsin, hstdin]
        exact ⟨0, { s2 with stdin := rest }, steps_succ_of_error hx2, hsout⟩
      · intro s1' h
        simp only [execute_step, hg1, hstdin] at h
        exact absurd h (by simp)
      · intro s1' h
        simp only [execute_step, hg1, hstdin] at h
        exact absurd h (by simp)
    | eof =>
      refine ⟨?_, ?_, ?_⟩
      · intro e s1' h
        by_cases hc : s1.ip + 1 < q.length <;>
          simp only [execute_step, hg1, hstdin, if_pos, if_neg, hc, if_true,
            if_false, advance] at h <;>
          exact absurd h (by simp)
      · intro s1' h
        by_cases hc : s1.ip + 1 < q.length
        · simp only [execute_step, hg1, hstdin, if_pos hc, advance] at h
          exact absurd h (by simp)
        · simp only [execute_step, hg1, hstdin, if_neg hc, advance] at h
          injection h with h1
          injection h1 with h2 h3
          subst h3
          have hx2 : execute_step s2 = Except.ok (true,
              { s2 with stdin := rest }) := by
            simp only [execute_step, hg2, hsin, hstdin,
              if_neg (fun ha => hc (hiff.mp ha)), advance]
          exact ⟨0, { s2 with stdin := rest }, steps_succ_of_ok_true hx2, hsout⟩
      · intro s1' h
        by_cases hc : s1.ip + 1 < q.length
        · simp only [execute_step, hg1, hstdin, if_pos hc, advance] at h
          injection h with h1
          injection h1 with h2 h3
          subst h3
          have hx2 : execute_step s2 = Except.ok (false,
              { s2 with stdin := rest, ip := s2.ip + 1 }) := by
            simp only [execute_step, hg2, hsin, hstdin, if_pos (hiff.mpr hc),
              advance]
          refine ⟨0, { s2 with stdin := rest, ip := s2.ip + 1 },
            by rw [steps_succ_of_ok_false hx2]; rfl, hp1, hp2, ?_, hd, hm, rfl, hsout⟩
          show s2.ip + 1 = amap q (s1.ip + 1)
          rw [hip, hsucc]
        · simp only [execute_step, hg1, hstdin, if_neg hc, advance] at h
          exact absurd h (by simp)
    | chr c =>
      refine ⟨?_, ?_, ?_⟩
      · intro e s1' h
        by_cases hc : s1.ip + 1 < q.length <;>
          simp only [execute_step, hg1, hstdin, if_pos, if_neg, hc, if_true,
            if_false, advance] at h <;>
          exact absurd h (by simp)
      · intro s1' h
        by_cases hc : s1.ip + 1 < q.length
        · simp only [execute_step, hg1, hstdin, if_pos hc, advance] at h
          exact absurd h (by simp)
        · simp only [execute_step, hg1, hstdin, if_neg hc, advance] at h
          injection h with h1
          injection h1 with h2 h3
          subst h3
          have hx2 : execute_step s2 = Except.ok (true,
              { s2 with stdin := rest, memory := s2.memory.set s2.data_ptr (c.toNat % 256) }) := by
            simp only [execute_step, hg2, hsin, hstdin,
              if_neg (fun ha => hc (hiff.mp ha)), advance]
          exact ⟨0, _, steps_succ_of_ok_true hx2, hsout⟩
      · intro s1' h
        by_cases hc : s1.ip + 1 < q.length
        · simp only [execute_step, hg1, hstdin, if_pos hc, advance] at h
          injection h with h1
          injection h1 with h2 h3
          subst h3
          have hx2 : execute_step s2 = Except.ok (false,
              { s2 with stdin := rest, memory := s2.memory.set s2.data_ptr (c.toNat % 256), ip := s2.ip + 1 }) := by
            simp only [execute_step, hg2, hsin, hstdin, if_pos (hiff.mpr hc),
              advance]
          refine ⟨0, { s2 with stdin := rest, memory := s2.memory.set s2.data_ptr (c.toNat % 256), ip := s2.ip + 1 },
            by rw [steps_succ_of_ok_false hx2]; rfl, hp1, hp2, ?_, hd, ?_, rfl, hsout⟩
          · show s2.ip + 1 = amap q (s1.ip + 1)
            rw [hip, hsucc]
          · show s2.memory.set s2.data_ptr _ = s1.memory.set s1.data_ptr _
            rw [hm, hd]
        · simp only [execute_step, hg1, hstdin, if_neg hc, advance] at h
          exact absurd h (by simp)

theorem sim_incvalue {q : List OpCode} {T1 : List (Nat × Nat)} {s1 s2 : VMState}
    {n : Nat} (hpos : ∀ op ∈ q, 1 ≤ op.count)
    (hrel : SimRel q T1 s1 s2)
    (hq : q.get? s1.ip = some (OpCode.IncValue n)) (hlt : s1.ip < q.length) :
    StepMatch q T1 s1 s2 := by
  obtain ⟨hp1, hp2, hip, hd, hm, hsin, hsout⟩ := hrel
  have hn : 1 ≤ n := count_pos_at hpos hq
  have hg1 : s1.program.get_step s1.ip = some ⟨OpCode.IncValue n,
      if s1.ip + 1 < q.length then some (s1.ip + 1) else none, none⟩ := by
    rw [hp1]
    exact get_step_simple hq (by simp) (by simp)
  have hsucc : amap q (s1.ip + 1) = amap q s1.ip + n := amap_succ hq
  have hcode2 : ∀ j, j < n →
      s2.program.code.get? (s2.ip + j) = some (OpCode.IncValue 1) := by
    intro j hj
    rw [hp2, hip]
    show (flatten q).get? (amap q s1.ip + j) = some (OpCode.IncValue 1)
    rw [flatten_get hq hj, List.get?_eq_getElem?]
    simp [expand, List.getElem?_replicate, hj]
  have hle : s2.ip + n ≤ s2.program.code.length := by
    rw [hp2, hip]
    show amap q s1.ip + n ≤ (flatten q).length
    rw [← hsucc]
    exact amap_le_flatten q (by omega)
  refine ⟨?_, ?_, ?_⟩
  · intro e s1' h
    by_cases hc : s1.ip + 1 < q.length <;>
      simp only [execute_step, hg1, if_pos, if_neg, hc, if_true, if_false,
        advance] at h <;>
      exact absurd h (by simp)
  · intro s1' h
    by_cases hc : s1.ip + 1 < q.length
    · simp only [execute_step, hg1, if_pos hc, advance] at h
      exact absurd h (by simp)
    · simp only [execute_step, hg1, if_neg hc, advance] at h
      injection h with h1
      injection h1 with h2 h3
      subst h3
      have heq : s2.ip + n = s2.program.code.length := by
        rw [hp2, hip]
        show amap q s1.ip + n = (flatten q).length
        rw [← hsucc, flatten_len_eq, show s1.ip + 1 = q.length from by omega]
      obtain ⟨s', hs', hout⟩ := (incValue_block n hn s2 hcode2 hle).2 heq
      exact ⟨n - 1, s', by rw [show n - 1 + 1 = n from by omega]; exact hs',
        hout.trans hsout⟩
  · intro s1' h
    by_cases hc : s1.ip + 1 < q.length
    · simp only [execute_step, hg1, if_pos hc, advance] at h
      injection h with h1
      injection h1 with h2 h3
      subst h3
      have hlt2 : s2.ip + n < s2.program.code.length := by
        rw [hp2, hip]
        show amap q s1.ip + n < (flatten q).length
        rw [← hsucc]
        exact (amap_lt_iff q hpos (by omega)).mpr hc
      have hblk := (incValue_block n hn s2 hcode2 hle).1 hlt2
      refine ⟨n - 1, { ip := s2.ip + n, data_ptr := s2.data_ptr, memory := s2.memory.set s2.data_ptr ((s2.memory.getD s2.data_ptr 0 + n % 256) % 256), program := s2.program, stdin := s2.stdin, stdout := s2.stdout },
        by rw [show n - 1 + 1 = n from by omega]; exact hblk,
        hp1, hp2, ?_, hd, ?_, hsin, hsout⟩
      · show s2.ip + n = amap q (s1.ip + 1)
        rw [hip, hsucc]
      · show s2.memory.set s2.data_ptr _ = s1.memory.set s1.data_ptr _
        rw [hm, hd]
    · simp only [execute_step, hg1, if_neg hc, advance] at h
      exact absurd h (by simp)

theorem sim_decvalue {q : List OpCode} {T1 : List (Nat × Nat)} {s1 s2 : VMState}
    {n : Nat} (hpos : ∀ op ∈ q, 1 ≤ op.count)
    (hrel : SimRel q T1 s1 s2)
    (hq : q.get? s1.ip = some (OpCode.DecValue n)) (hlt : s1.ip < q.length) :
    StepMatch q T1 s1 s2 := by
  obtain ⟨hp1, hp2, hip, hd, hm, hsin, hsout⟩ := hrel
  have hn : 1 ≤ n := count_pos_at hpos hq
  have hg1 : s1.program.get_step s1.ip = some ⟨OpCode.DecValue n,
      if s1.ip + 1 < q.length then some (s1.ip + 1) else none, none⟩ := by
    rw [hp1]
    exact get_step_simple hq (by simp) (by simp)
  have hsucc : amap q (s1.ip + 1) = amap q s1.ip + n := amap_succ hq
  have hcode2 : ∀ j, j < n →
      s2.program.code.get? (s2.ip + j) = some (OpCode.DecValue 1) := by
    intro j hj
    rw [hp2, hip]
    show (flatten q).get? (amap q s1.ip + j) = some (OpCode.DecValue 1)
    rw [flatten_get hq hj, List.get?_eq_getElem?]
    simp [expand, List.getElem?_replicate, hj]
  have hle : s2.ip + n ≤ s2.program.code.length := by
    rw [hp2, hip]
    show amap q s1.ip + n ≤ (flatten q).length
    rw [← hsucc]
    exact amap_le_flatten q (by omega)
  refine ⟨?_, ?_, ?_⟩
  · intro e s1' h
    by_cases hc : s1.ip + 1 < q.length <;>
      simp only [execute_step, hg1, if_pos, if_neg, hc, if_true, if_false,
        advance] at h <;>
      exact absurd h (by simp)
  · intro s1' h
    by_cases hc : s1.ip + 1 < q.length
    · simp only [execute_step, hg1, if_pos hc, advance] at h
      exact absurd h (by simp)
    · simp only [execute_step, hg1, if_neg hc, advance] at h
      injection h with h1
      injection h1 with h2 h3
      subst h3
      have heq : s2.ip + n = s2.program.code.length := by
        rw [hp2, hip]
        show amap q s1.ip + n = (flatten q).length
        rw [← hsucc, flatten_len_eq, show s1.ip + 1 = q.length from by omega]
      obtain ⟨s', hs', hout⟩ := (decValue_block n hn s2 hcode2 hle).2 heq
      exact ⟨n - 1, s', by rw [show n - 1 + 1 = n from by omega]; exact hs',
        hout.trans hsout⟩
  · intro s1' h
    by_cases hc : s1.ip + 1 < q.length
    · simp only [execute_step, hg1, if_pos hc, advance] at h
      injection h with h1
      injection h1 with h2 h3
      subst h3
      have hlt2 : s2.ip + n < s2.program.code.length := by
        rw [hp2, hip]
        show amap q s1.ip + n < (flatten q).length
        rw [← hsucc]
        exact (amap_lt_iff q hpos (by omega)).mpr hc
      have hblk := (decValue_block n hn s2 hcode2 hle).1 hlt2
      refine ⟨n - 1, { ip := s2.ip + n, data_ptr := s2.data_ptr, memory := s2.memory.set s2.data_ptr ((s2.memory.getD s2.data_ptr 0 + (256 - n % 256)) % 256), program := s2.program, stdin := s2.stdin, stdout := s2.stdout },
        by rw [show n - 1 + 1 = n from by omega]; exact hblk,
        hp1, hp2, ?_, hd, ?_, hsin, hsout⟩
      · show s2.ip + n = amap q (s1.ip + 1)
        rw [hip, hsucc]
      · show s2.memory.set s2.data_ptr _ = s1.memory.set s1.data_ptr _
        rw [hm, hd]
    · simp only [execute_step, hg1, if_neg hc, advance] at h
      exact absurd h (by simp)

theorem sim_incdataptr {q : List OpCode} {T1 : List (Nat × Nat)} {s1 s2 : VMState}
    {n : Nat} (hpos : ∀ op ∈ q, 1 ≤ op.count)
    (hrel : SimRel q T1 s1 s2)
    (hq : q.get? s1.ip = some (OpCode.IncDataPtr n)) (hlt : s1.ip < q.length) :
    StepMatch q T1 s1 s2 := by
  obtain ⟨hp1, hp2, hip, hd, hm, hsin, hsout⟩ := hrel
  have hn : 1 ≤ n := count_pos_at hpos hq
  have hg1 : s1.program.get_step s1.ip = some ⟨OpCode.IncDataPtr n,
      if s1.ip + 1 < q.length then some (s1.ip + 1) else none, none⟩ := by
    rw [hp1]
    exact get_step_simple hq (by simp) (by simp)
  have hsucc : amap q (s1.ip + 1) = amap q s1.ip + n := amap_succ hq
  have hcode2 : ∀ j, j < n →
      s2.program.code.get? (s2.ip + j) = some (OpCode.IncDataPtr 1) := by
    intro j hj
    rw [hp2, hip]
    show (flatten q).get? (amap q s1.ip + j) = some (OpCode.IncDataPtr 1)
    rw [flatten_get hq hj, List.get?_eq_getElem?]
    simp [expand, List.getElem?_replicate, hj]
  have hle : s2.ip + n ≤ s2.program.code.length := by
    rw [hp2, hip]
    show amap q s1.ip + n ≤ (flatten q).length
    rw [← hsucc]
    exact amap_le_flatten q (by omega)
  refine ⟨?_, ?_, ?_⟩
  · intro e s1' h
    by_cases hg : s1.data_ptr + n ≥ s1.memory.length
    · simp only [execute_step, hg1, if_pos hg] at h
      injection h with h1
      injection h1 with h2 h3
      subst h2 h3
      obtain ⟨m, s', hs', hout⟩ := (incDataPtr_block n hn s2 hcode2 hle).2
        (by rw [hm, hd]; exact hg)
      exact ⟨m, s', hs', hout.trans hsout⟩
    · by_cases hc : s1.ip + 1 < q.length <;>
        simp only [execute_step, hg1, if_neg hg, if_pos, if_neg, hc, if_true,
          if_false, advance] at h <;>
        exact absurd h (by simp)
  · intro s1' h
    by_cases hg : s1.data_ptr + n ≥ s1.memory.length
    · simp only [execute_step, hg1, if_pos hg] at h
      exact absurd h (by simp)
    · by_cases hc : s1.ip + 1 < q.length
      · simp only [execute_step, hg1, if_neg hg, if_pos hc, advance] at h
        exact absurd h (by simp)
      · simp only [execute_step, hg1, if_neg hg, if_neg hc, advance] at h
        injection h with h1
        injection h1 with h2 h3
        subst h3
        have hmem2 : s2.data_ptr + n < s2.memory.length := by
          rw [hm, hd]; omega
        have heq : s2.ip + n = s2.program.code.length := by
          rw [hp2, hip]
          show amap q s1.ip + n = (flatten q).length
          rw [← hsucc, flatten_len_eq, show s1.ip + 1 = q.length from by omega]
        obtain ⟨s', hs', hout⟩ :=
          ((incDataPtr_block n hn s2 hcode2 hle).1 hmem2).2 heq
        exact ⟨n - 1, s', by rw [show n - 1 + 1 = n from by omega]; exact hs',
          hout.trans hsout⟩
  · intro s1' h
    by_cases hg : s1.data_ptr + n ≥ s1.memory.length
    · simp only [execute_step, hg1, if_pos hg] at h
      exact absurd h (by simp)
    · by_cases hc : s1.ip + 1 < q.length
      · simp only [execute_step, hg1, if_neg hg, if_pos hc, advance] at h
        injection h with h1
        injection h1 with h2 h3
        subst h3
        have hmem2 : s2.data_ptr + n < s2.memory.length := by
          rw [hm, hd]; omega
        have hlt2 : s2.ip + n < s2.program.code.length := by
          rw [hp2, hip]
          show amap q s1.ip + n < (flatten q).length
          rw [← hsucc]
          exact (amap_lt_iff q hpos (by omega)).mpr hc
        have hblk := ((incDataPtr_block n hn s2 hcode2 hle).1 hmem2).1 hlt2
        refine ⟨n - 1, { ip := s2.ip + n, data_ptr := s2.data_ptr + n, memory := s2.memory, program := s2.program, stdin := s2.stdin, stdout := s2.stdout },
          by rw [show n - 1 + 1 = n from by omega]; exact hblk,
          hp1, hp2, ?_, ?_, hm, hsin, hsout⟩
        · show s2.ip + n = amap q (s1.ip + 1)
          rw [hip, hsucc]
        · show s2.data_ptr + n = s1.data_ptr + n
          rw [hd]
      · simp only [execute_step, hg1, if_neg hg, if_neg hc, advance] at h
        exact absurd h (by simp)

theorem sim_decdataptr {q : List OpCode} {T1 : List (Nat × Nat)} {s1 s2 : VMState}
    {n : Nat} (hpos : ∀ op ∈ q, 1 ≤ op.count)
    (hrel : SimRel q T1 s1 s2)
    (hq : q.get? s1.ip = some (OpCode.DecDataPtr n)) (hlt : s1.ip < q.length) :
    StepMatch q T1 s1 s2 := by
  obtain ⟨hp1, hp2, hip, hd, hm, hsin, hsout⟩ := hrel
  have hn : 1 ≤ n := count_pos_at hpos hq
  have hg1 : s1.program.get_step s1.ip = some ⟨OpCode.DecDataPtr n,
      if s1.ip + 1 < q.length then some (s1.ip + 1) else none, none⟩ := by
    rw [hp1]
    exact get_step_simple hq (by simp) (by simp)
  have hsucc : amap q (s1.ip + 1) = amap q s1.ip + n := amap_succ hq
  have hcode2 : ∀ j, j < n →
      s2.program.code.get? (s2.ip + j) = some (OpCode.DecDataPtr 1) := by
    intro j hj
    rw [hp2, hip]
    show (flatten q).get? (amap q s1.ip + j) = some (OpCode.DecDataPtr 1)
    rw [flatten_get hq hj, List.get?_eq_getElem?]
    simp [expand, List.getElem?_replicate, hj]
  have hle : s2.ip + n ≤ s2.program.code.length := by
    rw [hp2, hip]
    show amap q s1.ip + n ≤ (flatten q).length
    rw [← hsucc]
    exact amap_le_flatten q (by omega)
  refine ⟨?_, ?_, ?_⟩
  · intro e s1' h
    by_cases hg : s1.data_ptr < n
    · simp only [execute_step, hg1, if_pos hg] at h
      injection h with h1
      injection h1 with h2 h3
      subst h2 h3
      obtain ⟨m, s', hs', hout⟩ := (decDataPtr_block n hn s2 hcode2 hle).2
        (by rw [hd]; exact hg)
      exact ⟨m, s', hs', hout.trans hsout⟩
    · by_cases hc : s1.ip + 1 < q.length <;>
        simp only [execute_step, hg1, if_neg hg, if_pos, if_neg, hc, if_true,
          if_false, advance] at h <;>
        exact absurd h (by simp)
  · intro s1' h
    by_cases hg : s1.data_ptr < n
    · simp only [execute_step, hg1, if_pos hg] at h
      exact absurd h (by simp)
    · by_cases hc : s1.ip + 1 < q.length
      · simp only [execute_step, hg1, if_neg hg, if_pos hc, advance] at h
        exact absurd h (by simp)
      · simp only [execute_step, hg1, if_neg hg, if_neg hc, advance] at h
        injection h with h1
        injection h1 with h2 h3
        subst h3
        have hmem2 : n ≤ s2.data_ptr := by
          rw [hd]; omega
        have heq : s2.ip + n = s2.program.code.length := by
          rw [hp2, hip]
          show amap q s1.ip + n = (flatten q).length
          rw [← hsucc, flatten_len_eq, show s1.ip + 1 = q.length from by omega]
        obtain ⟨s', hs', hout⟩ :=
          ((decDataPtr_block n hn s2 hcode2 hle).1 hmem2).2 heq
        exact ⟨n - 1, s', by rw [show n - 1 + 1 = n from by omega]; exact hs',
          hout.trans hsout⟩
  · intro s1' h
    by_cases hg : s1.data_ptr < n
    · simp only [execute_step, hg1, if_pos hg] at h
      exact absurd h (by simp)
    · by_cases hc : s1.ip + 1 < q.length
      · simp only [execute_step, hg1, if_neg hg, if_pos hc, advance] at h
        injection h with h1
        injection h1 with h2 h3
        subst h3
        have hmem2 : n ≤ s2.data_ptr := by
          rw [hd]; omega
        have hlt2 : s2.ip + n < s2.program.code.length := by
          rw [hp2, hip]
          show amap q s1.ip + n < (flatten q).length
          rw [← hsucc]
          exact (amap_lt_iff q hpos (by omega)).mpr hc
        have hblk := ((decDataPtr_block n hn s2 hcode2 hle).1 hmem2).1 hlt2
        refine ⟨n - 1, { ip := s2.ip + n, data_ptr := s2.data_ptr - n, memory := s2.memory, program := s2.program, stdin := s2.stdin, stdout := s2.stdout },
          by rw [show n - 1 + 1 = n from by omega]; exact hblk,
          hp1, hp2, ?_, ?_, hm, hsin, hsout⟩
        · show s2.ip + n = amap q (s1.ip + 1)
          rw [hip, hsucc]
        · show s2.data_ptr - n = s1.data_ptr - n
          rw [hd]
      · simp only [execute_step, hg1, if_neg hg, if_neg hc, advance] at h
        exact absurd h (by simp)

theorem sim_loopstart {q : List OpCode} {T1 : List (Nat × Nat)} {s1 s2 : VMState}
    (hpos : ∀ op ∈ q, 1 ≤ op.count)
    (hti : TableInv q q.length [] T1)
    (hrel : SimRel q T1 s1 s2)
    (hq : q.get? s1.ip = some OpCode.LoopStart) (hlt : s1.ip < q.length) :
    StepMatch q T1 s1 s2 := by
  obtain ⟨hp1, hp2, hip, hd, hm, hsin, hsout⟩ := hrel
  obtain ⟨e, hlk⟩ := bracket_has_lookup hti (Or.inl hq)
  have hpair : IsPair q s1.ip e := pair_of_lookup_start hti hlk hq
  have he1 : s1.ip < e := hpair.1
  have he2 : e < q.length := hpair.2.1
  have hqe : q.get? e = some OpCode.LoopEnd := hpair.2.2.2.1
  have hg1 : s1.program.get_step s1.ip = some ⟨OpCode.LoopStart,
      if s1.ip + 1 < q.length then some (s1.ip + 1) else none,
      if e + 1 < q.length then some (e + 1) else none⟩ := by
    rw [hp1]
    exact get_step_loopstart hq hlk
  rw [if_pos (show s1.ip + 1 < q.length by omega)] at hg1
  have hq2 : (flatten q).get? (amap q s1.ip + 0) = some OpCode.LoopStart := by
    rw [flatten_get hq (by simp [OpCode.count])]
    rfl
  rw [Nat.add_zero] at hq2
  have hlk2 : (mapPair (amap q) T1).lookup (amap q s1.ip) = some (amap q e) :=
    lookup_transfer hpos hti (by omega) hlk
  have hg2 : s2.program.get_step s2.ip = some ⟨OpCode.LoopStart,
      if amap q s1.ip + 1 < (flatten q).length then some (amap q s1.ip + 1)
        else none,
      if amap q e + 1 < (flatten q).length then some (amap q e + 1)
        else none⟩ := by
    rw [hp2, hip]
    exact get_step_loopstart hq2 hlk2
  have hsucc : amap q (s1.ip + 1) = amap q s1.ip + 1 := amap_succ hq
  have hsucce : amap q (e + 1) = amap q e + 1 := amap_succ hqe
  have hc2 : amap q s1.ip + 1 < (flatten q).length := by
    rw [← hsucc]
    exact (amap_lt_iff q hpos (by omega)).mpr (by omega)
  rw [if_pos hc2] at hg2
  have hiffe : (amap q e + 1 < (flatten q).length) ↔ (e + 1 < q.length) := by
    rw [← hsucce]
    exact amap_lt_iff q hpos (by omega)
  have hmv : s2.memory.getD s2.data_ptr 0 = s1.memory.getD s1.data_ptr 0 := by
    rw [hm, hd]
  refine ⟨?_, ?_, ?_⟩
  · intro er s1' h
    by_cases hz : s1.memory.getD s1.data_ptr 0 = 0
    · by_cases hce : e + 1 < q.length
      · simp only [execute_step, hg1, if_pos hz, if_pos hce, advance] at h
        exact absurd h (by simp)
      · simp only [execute_step, hg1, if_pos hz, if_neg hce, advance] at h
        exact absurd h (by simp)
    · simp only [execute_step, hg1, if_neg hz, advance] at h
      exact absurd h (by simp)
  · intro s1' h
    by_cases hz : s1.memory.getD s1.data_ptr 0 = 0
    · by_cases hce : e + 1 < q.length
      · simp only [execute_step, hg1, if_pos hz, if_pos hce, advance] at h
        exact absurd h (by simp)
      · simp only [execute_step, hg1, if_pos hz, if_neg hce, advance] at h
        injection h with h1
        injection h1 with h2 h3
        subst h3
        have hx2 : execute_step s2 = Except.ok (true, s2) := by
          simp only [execute_step, hg2, hmv, if_pos hz,
            if_neg (fun ha => hce (hiffe.mp ha)), advance]
        exact ⟨0, s2, steps_succ_of_ok_true hx2, hsout⟩
    · simp only [execute_step, hg1, if_neg hz, advance] at h
      exact absurd h (by simp)
  · intro s1' h
    by_cases hz : s1.memory.getD s1.data_ptr 0 = 0
    · by_cases hce : e + 1 < q.length
      · simp only [execute_step, hg1, if_pos hz, if_pos hce, advance] at h
        injection h with h1
        injection h1 with h2 h3
        subst h3
        have hx2 : execute_step s2 = Except.ok (false,
            { s2 with ip := amap q e + 1 }) := by
          simp only [execute_step, hg2, hmv, if_pos hz,
            if_pos (hiffe.mpr hce), advance]
        refine ⟨0, { s2 with ip := amap q e + 1 },
          by rw [steps_succ_of_ok_false hx2]; rfl, hp1, hp2, ?_, hd, hm, hsin,
          hsout⟩
        show amap q e + 1 = amap q (e + 1)
        rw [hsucce]
      · simp only [execute_step, hg1, if_pos hz, if_neg hce, advance] at h
        exact absurd h (by simp)
    · simp only [execute_step, hg1, if_neg hz, advance] at h
      injection h with h1
      injection h1 with h2 h3
      subst h3
      have hx2 : execute_step s2 = Except.ok (false,
          { s2 with ip := amap q s1.ip + 1 }) := by
        simp only [execute_step, hg2, hmv, if_neg hz, advance]
      refine ⟨0, { s2 with ip := amap q s1.ip + 1 },
        by rw [steps_succ_of_ok_false hx2]; rfl, hp1, hp2, ?_, hd, hm, hsin,
        hsout⟩
      show amap q s1.ip + 1 = amap q (s1.ip + 1)
      rw [hsucc]

theorem sim_loopend {q : List OpCode} {T1 : List (Nat × Nat)} {s1 s2 : VMState}
    (hpos : ∀ op ∈ q, 1 ≤ op.count)
    (hti : TableInv q q.length [] T1)
    (hrel : SimRel q T1 s1 s2)
    (hq : q.get? s1.ip = some OpCode.LoopEnd) (hlt : s1.ip < q.length) :
    StepMatch q T1 s1 s2 := by
  obtain ⟨hp1, hp2, hip, hd, hm, hsin, hsout⟩ := hrel
  obtain ⟨st, hlk⟩ := bracket_has_lookup hti (Or.inr hq)
  have hpair : IsPair q st s1.ip := pair_of_lookup_end hti hlk hq
  have he1 : st < s1.ip := hpair.1
  have hqs : q.get? st = some OpCode.LoopStart := hpair.2.2.1
  have hg1 : s1.program.get_step s1.ip = some ⟨OpCode.LoopEnd, some (st + 1),
      if s1.ip + 1 < q.length then some (s1.ip + 1) else none⟩ := by
    rw [hp1]
    exact get_step_loopend hq hlk
  have hq2 : (flatten q).get? (amap q s1.ip + 0) = some OpCode.LoopEnd := by
    rw [flatten_get hq (by simp [OpCode.count])]
    rfl
  rw [Nat.add_zero] at hq2
  have hlk2 : (mapPair (amap q) T1).lookup (amap q s1.ip) = some (amap q st) :=
    lookup_transfer hpos hti (by omega) hlk
  have hg2 : s2.program.get_step s2.ip = some ⟨OpCode.LoopEnd,
      some (amap q st + 1),
      if amap q s1.ip + 1 < (flatten q).length then some (amap q s1.ip + 1)
        else none⟩ := by
    rw [hp2, hip]
    exact get_step_loopend hq2 hlk2
  have hsucc : amap q (s1.ip + 1) = amap q s1.ip + 1 := amap_succ hq
  have hsuccst : amap q (st + 1) = amap q st + 1 := amap_succ hqs
  have hiff : (amap q s1.ip + 1 < (flatten q).length) ↔
      (s1.ip + 1 < q.length) := by
    rw [← hsucc]
    exact amap_lt_iff q hpos (by omega)
  have hmv : s2.memory.getD s2.data_ptr 0 = s1.memory.getD s1.data_ptr 0 := by
    rw [hm, hd]
  refine ⟨?_, ?_, ?_⟩
  · intro er s1' h
    by_cases hz : s1.memory.getD s1.data_ptr 0 = 0
    · by_cases hc : s1.ip + 1 < q.length
      · simp only [execute_step, hg1, if_pos hz, if_pos hc, advance] at h
        exact absurd h (by simp)
      · simp only [execute_step, hg1, if_pos hz, if_neg hc, advance] at h
        exact absurd h (by simp)
    · simp only [execute_step, hg1, if_neg hz, advance] at h
      exact absurd h (by simp)
  · intro s1' h
    by_cases hz : s1.memory.getD s1.data_ptr 0 = 0
    · by_cases hc : s1.ip + 1 < q.length
      · simp only [execute_step, hg1, if_pos hz, if_pos hc, advance] at h
        exact absurd h (by simp)
      · simp only [execute_step, hg1, if_pos hz, if_neg hc, advance] at h
        injection h with h1
        injection h1 with h2 h3
        subst h3
        have hx2 : execute_step s2 = Except.ok (true, s2) := by
          simp only [execute_step, hg2, hmv, if_pos hz,
            if_neg (fun ha => hc (hiff.mp ha)), advance]
        exact ⟨0, s2, steps_succ_of_ok_true hx2, hsout⟩
    · simp only [execute_step, hg1, if_neg hz, advance] at h
      exact absurd h (by simp)
  · intro s1' h
    by_cases hz : s1.memory.getD s1.data_ptr 0 = 0
    · by_cases hc : s1.ip + 1 < q.length
      · simp only [execute_step, hg1, if_pos hz, if_pos hc, advance] at h
        injection h with h1
        injection h1 with h2 h3
        subst h3
        have hx2 : execute_step s2 = Except.ok (false,
            { s2 with ip := amap q s1.ip + 1 }) := by
          simp only [execute_step, hg2, hmv, if_pos hz, if_pos (hiff.mpr hc),
            advance]
        refine ⟨0, { s2 with ip := amap q s1.ip + 1 },
          by rw [steps_succ_of_ok_false hx2]; rfl, hp1, hp2, ?_, hd, hm, hsin,
          hsout⟩
        show amap q s1.ip + 1 = amap q (s1.ip + 1)
        rw [hsucc]
      · simp only [execute_step, hg1, if_pos hz, if_neg hc, advance] at h
        exact absurd h (by simp)
    · simp only [execute_step, hg1, if_neg hz, advance] at h
      injection h with h1
      injection h1 with h2 h3
      subst h3
      have hx2 : execute_step s2 = Except.ok (false,
          { s2 with ip := amap q st + 1 }) := by
        simp only [execute_step, hg2, hmv, if_neg hz, advance]
      refine ⟨0, { s2 with ip := amap q st + 1 },
        by rw [steps_succ_of_ok_false hx2]; rfl, hp1, hp2, ?_, hd, hm, hsin,
        hsout⟩
      show amap q st + 1 = amap q (st + 1)
      rw [hsuccst]

theorem sim_step {q : List OpCode} {T1 : List (Nat × Nat)} {s1 s2 : VMState}
    (hpos : ∀ op ∈ q, 1 ≤ op.count)
    (hti : TableInv q q.length [] T1)
    (hrel : SimRel q T1 s1 s2) :
    StepMatch q T1 s1 s2 := by
  by_cases hlt : s1.ip < q.length
  · rcases hq : q.get? s1.ip with _ | op
    · have := List.get?_eq_none.mp hq
      omega
    · cases op with
      | IncDataPtr n => exact sim_incdataptr hpos hrel hq hlt
      | DecDataPtr n => exact sim_decdataptr hpos hrel hq hlt
      | IncValue n => exact sim_incvalue hpos hrel hq hlt
      | DecValue n => exact sim_decvalue hpos hrel hq hlt
      | Input => exact sim_input hpos hrel hq hlt
      | Output => exact sim_output hpos hrel hq hlt
      | LoopStart => exact sim_loopstart hpos hti hrel hq hlt
      | LoopEnd => exact sim_loopend hpos hti hrel hq hlt
  · exact sim_none hrel (by omega)

theorem steps_trans : ∀ (a : Nat) {b : Nat} {s u : VMState},
    steps a s = Except.ok (false, u) → steps (a + b) s = steps b u := by
  intro a
  induction a with
  | zero =>
    intro b s u h
    show steps (0 + b) s = steps b u
    rw [Nat.zero_add]
    have h0 : steps 0 s = Except.ok (false, s) := rfl
    rw [h0] at h
    injection h with h1
    injection h1 with h2 h3
    rw [h3]
  | succ a ih =>
    intro b s u h
    rcases hx : execute_step s with es | ⟨b0, t⟩
    · rw [steps_succ_of_error hx] at h
      exact absurd h (by simp)
    · cases b0 with
      | true =>
        rw [steps_succ_of_ok_true hx] at h
        exact absurd h (by simp)
      | false =>
        rw [steps_succ_of_ok_false hx] at h
        rw [show a + 1 + b = (a + b) + 1 from by omega,
          steps_succ_of_ok_false hx]
        exact ih h

theorem steps_terminal_mono : ∀ (N : Nat) {m : Nat} {s : VMState}
    {r : Except (EvalError × VMState) (Bool × VMState)},
    steps N s = r → (∀ u, r ≠ Except.ok (false, u)) → N ≤ m →
    steps m s = r := by
  intro N
  induction N with
  | zero =>
    intro m s r h hterm hle
    exact absurd h.symm (hterm s)
  | succ N ih =>
    intro m s r h hterm hle
    obtain ⟨m', rfl⟩ : ∃ m', m = m' + 1 := ⟨m - 1, by omega⟩
    rcases hx : execute_step s with es | ⟨b0, t⟩
    · rw [steps_succ_of_error hx] at h
      rw [steps_succ_of_error hx]
      exact h
    · cases b0 with
      | true =>
        rw [steps_succ_of_ok_true hx] at h
        rw [steps_succ_of_ok_true hx]
        exact h
      | false =>
        rw [steps_succ_of_ok_false hx] at h
        rw [steps_succ_of_ok_false hx]
        exact ih h hterm (by omega)

theorem sim_run {q : List OpCode} {T1 : List (Nat × Nat)}
    (hpos : ∀ op ∈ q, 1 ≤ op.count)
    (hti : TableInv q q.length [] T1) :
    ∀ (n : Nat) {s1 s2 : VMState}, SimRel q T1 s1 s2 →
    (∀ e s1', steps n s1 = Except.error (e, s1') →
      ∃ m s2', steps m s2 = Except.error (e, s2') ∧ s2'.stdout = s1'.stdout) ∧
    (∀ s1', steps n s1 = Except.ok (true, s1') →
      ∃ m s2', steps m s2 = Except.ok (true, s2') ∧ s2'.stdout = s1'.stdout) ∧
    (∀ s1', steps n s1 = Except.ok (false, s1') →
      ∃ m s2', n ≤ m ∧ steps m s2 = Except.ok (false, s2') ∧
        SimRel q T1 s1' s2') := by
  intro n
  induction n with
  | zero =>
    intro s1 s2 hrel
    have h0 : steps 0 s1 = Except.ok (false, s1) := rfl
    refine ⟨?_, ?_, ?_⟩
    · intro e s1' h
      rw [h0] at h
      exact absurd h (by simp)
    · intro s1' h
      rw [h0] at h
      exact absurd h (by simp)
    · intro s1' h
      rw [h0] at h
      injection h with h1
      injection h1 with h2 h3
      subst h3
      exact ⟨0, s2, Nat.le_refl 0, rfl, hrel⟩
  | succ n ih =>
    intro s1 s2 hrel
    have hsm := sim_step hpos hti hrel
    refine ⟨?_, ?_, ?_⟩
    · intro e s1' h
      rcases hx : execute_step s1 with ⟨e0, t0⟩ | ⟨b0, t⟩
      · rw [steps_succ_of_error hx] at h
        injection h with h1
        injection h1 with h2 h3
        subst h2 h3
        obtain ⟨k, s2', hk, hout⟩ := hsm.1 e0 t0 hx
        exact ⟨k + 1, s2', hk, hout⟩
      · cases b0 with
        | true =>
          rw [steps_succ_of_ok_true hx] at h
          exact absurd h (by simp)
        | false =>
          rw [steps_succ_of_ok_false hx] at h
          obtain ⟨k, s2t, hk, hrel2⟩ := hsm.2.2 t hx
          obtain ⟨m, s2', hm, hout⟩ := (ih hrel2).1 e s1' h
          exact ⟨k + 1 + m, s2',
            by rw [steps_trans (k + 1) hk]; exact hm, hout⟩
    · intro s1' h
      rcases hx : execute_step s1 with ⟨e0, t0⟩ | ⟨b0, t⟩
      · rw [steps_succ_of_error hx] at h
        exact absurd h (by simp)
      · cases b0 with
        | true =>
          rw [steps_succ_of_ok_true hx] at h
          injection h with h1
          injection h1 with h2 h3
          subst h3
          obtain ⟨k, s2', hk, hout⟩ := hsm.2.1 t hx
          exact ⟨k + 1, s2', hk, hout⟩
        | false =>
          rw [steps_succ_of_ok_false hx] at h
          obtain ⟨k, s2t, hk, hrel2⟩ := hsm.2.2 t hx
          obtain ⟨m, s2', hm, hout⟩ := (ih hrel2).2.1 s1' h
          exact ⟨k + 1 + m, s2',
            by rw [steps_trans (k + 1) hk]; exact hm, hout⟩
    · intro s1' h
      rcases hx : execute_step s1 with ⟨e0, t0⟩ | ⟨b0, t⟩
      · rw [steps_succ_of_error hx] at h
        exact absurd h (by simp)
      · cases b0 with
        | true =>
          rw [steps_succ_of_ok_true hx] at h
          exact absurd h (by simp)
        | false =>
          rw [steps_succ_of_ok_false hx] at h
          obtain ⟨k, s2t, hk, hrel2⟩ := hsm.2.2 t hx
          obtain ⟨m, s2', hmle, hm, hrel3⟩ := (ih hrel2).2.2 s1' h
          exact ⟨k + 1 + m, s2', by omega,
            by rw [steps_trans (k + 1) hk]; exact hm, hrel3⟩

theorem steps_terminal_agree {s : VMState} {n m : Nat}
    {r1 r2 : Except (EvalError × VMState) (Bool × VMState)}
    (h1 : steps n s = r1) (h2 : steps m s = r2)
    (ht1 : ∀ u, r1 ≠ Except.ok (false, u))
    (ht2 : ∀ u, r2 ≠ Except.ok (false, u)) : r1 = r2 := by
  rcases Nat.le_total n m with hle | hle
  · rw [← steps_terminal_mono n h1 ht1 hle, h2]
  · rw [← steps_terminal_mono m h2 ht2 hle, h1]

theorem sim_init {src : List Char} {p1 p2 : Program} {input : List InResp}
    {msize : Nat}
    (h1 : Program.new src true = Except.ok p1)
    (h2 : Program.new src false = Except.ok p2) :
    SimRel p1.code p1.jump_table (VMState.init p1 input msize)
      (VMState.init p2 input msize) := by
  obtain ⟨hcode, hjt⟩ := new_rle_raw h1 h2
  refine ⟨?_, ?_, ?_, rfl, rfl, rfl, rfl⟩
  · show p1 = { code := p1.code, jump_table := p1.jump_table }
    rfl
  · show p2 = { code := flatten p1.code, jump_table := mapPair (amap p1.code) p1.jump_table }
    rw [← hcode, ← hjt]
  · show 0 = amap p1.code 0
    rfl

/-- C2: for every source text, input sequence and memory size, the program
built with `rle = true` and the one built with `rle = false` have the same
observable behaviour under `VM::run`: every outcome (normal termination or
evaluation error, with the output written so far) reached by one is reached
by the other. -/
theorem claim_C2_rle_equivalence {src : List Char} {input : List InResp}
    {msize : Nat} {p1 p2 : Program}
    (h1 : Program.new src true = Except.ok p1)
    (h2 : Program.new src false = Except.ok p2) :
    (∀ n r, runOutcome n (VMState.init p1 input msize) = some r →
      ∃ m, runOutcome m (VMState.init p2 input msize) = some r) ∧
    (∀ n r, runOutcome n (VMState.init p2 input msize) = some r →
      ∃ m, runOutcome m (VMState.init p1 input msize) = some r) := by
  have hpos : ∀ op ∈ p1.code, 1 ≤ op.count := by
    rw [(program_new_ok h1).1]
    exact codeOf_pos src
  have hti := (program_new_ok h1).2.2
  have hrel : SimRel p1.code p1.jump_table (VMState.init p1 input msize)
      (VMState.init p2 input msize) := sim_init h1 h2
  constructor
  · intro n r h
    rcases hs : steps n (VMState.init p1 input msize) with ⟨e, t⟩ | ⟨b, t⟩
    · simp only [runOutcome, hs] at h
      obtain ⟨m, s2', hm, hout⟩ := (sim_run hpos hti n hrel).1 e t hs
      refine ⟨m, ?_⟩
      rw [← h]
      simp only [runOutcome, hm, hout]
    · cases b with
      | false =>
        simp only [runOutcome, hs] at h
        exact absurd h (by simp)
      | true =>
        simp only [runOutcome, hs] at h
        obtain ⟨m, s2', hm, hout⟩ := (sim_run hpos hti n hrel).2.1 t hs
        refine ⟨m, ?_⟩
        rw [← h]
        simp only [runOutcome, hm, hout]
  · intro n r h
    rcases hs2 : steps n (VMState.init p2 input msize) with ⟨e2, t2⟩ | ⟨b2, t2⟩
    · simp only [runOutcome, hs2] at h
      rcases hs1 : steps n (VMState.init p1 input msize) with ⟨e, t⟩ | ⟨b, t⟩
      · obtain ⟨m, s2', hm, hout⟩ := (sim_run hpos hti n hrel).1 e t hs1
        have hag := steps_terminal_agree hs2 hm (by simp) (by simp)
        injection hag with hg1
        injection hg1 with hg2 hg3
        subst hg2 hg3
        refine ⟨n, ?_⟩
        rw [← h]
        simp only [runOutcome, hs1, hout]
      · cases b with
        | false =>
          obtain ⟨m, s2', hmle, hm, -⟩ := (sim_run hpos hti n hrel).2.2 t hs1
          have hterm := steps_terminal_mono n hs2 (by simp) hmle
          rw [hm] at hterm
          exact absurd hterm (by simp)
        | true =>
          obtain ⟨m, s2', hm, hout⟩ := (sim_run hpos hti n hrel).2.1 t hs1
          have hag := steps_terminal_agree hs2 hm (by simp) (by simp)
          exact absurd hag (by simp)
    · cases b2 with
      | false =>
        simp only [runOutcome, hs2] at h
        exact absurd h (by simp)
      | true =>
        simp only [runOutcome, hs2] at h
        rcases hs1 : steps n (VMState.init p1 input msize) with ⟨e, t⟩ | ⟨b, t⟩
        · obtain ⟨m, s2', hm, hout⟩ := (sim_run hpos hti n hrel).1 e t hs1
          have hag := steps_terminal_agree hs2 hm (by simp) (by simp)
          exact absurd hag (by simp)
        · cases b with
          | false =>
            obtain ⟨m, s2', hmle, hm, -⟩ := (sim_run hpos hti n hrel).2.2 t hs1
            have hterm := steps_terminal_mono n hs2 (by simp) hmle
            rw [hm] at hterm
            exact absurd hterm (by simp)
          | true =>
            obtain ⟨m, s2', hm, hout⟩ := (sim_run hpos hti n hrel).2.1 t hs1
            have hag := steps_terminal_agree hs2 hm (by simp) (by simp)
            injection hag with hg1
            injection hg1 with hg2 hg3
            subst hg3
            refine ⟨n, ?_⟩
            rw [← h]
            simp only [runOutcome, hs1, hout]

theorem claim_C2_rle_equivalence_witness :
    Program.new ['+', '+', '.'] true =
      Except.ok { code := [OpCode.IncValue 2, OpCode.Output], jump_table := [] } ∧
    Program.new ['+', '+', '.'] false =
      Except.ok { code := [OpCode.IncValue 1, OpCode.IncValue 1, OpCode.Output], jump_table := [] } ∧
    ((∀ n r, runOutcome n (VMState.init { code := [OpCode.IncValue 2, OpCode.Output], jump_table := [] } [] 4) = some r →
      ∃ m, runOutcome m (VMState.init { code := [OpCode.IncValue 1, OpCode.IncValue 1, OpCode.Output], jump_table := [] } [] 4) = some r) ∧
    (∀ n r, runOutcome n (VMState.init { code := [OpCode.IncValue 1, OpCode.IncValue 1, OpCode.Output], jump_table := [] } [] 4) = some r →
      ∃ m, runOutcome m (VMState.init { code := [OpCode.IncValue 2, OpCode.Output], jump_table := [] } [] 4) = some r)) :=
  ⟨rfl, rfl,
    @claim_C2_rle_equivalence ['+', '+', '.'] [] 4
      { code := [OpCode.IncValue 2, OpCode.Output], jump_table := [] }
      { code := [OpCode.IncValue 1, OpCode.IncValue 1, OpCode.Output], jump_table := [] }
      rfl rfl⟩

theorem advance_ne_error (o : Option Nat) (t : VMState) (es : EvalError × VMState) :
    advance o t ≠ Except.error es := by
  unfold advance; cases o <;> simp

theorem advance_ok_fields (o : Option Nat) (t : VMState) (b : Bool) (s' : VMState)
    (h : advance o t = Except.ok (b, s')) :
    s'.data_ptr = t.data_ptr ∧ s'.memory = t.memory ∧ s'.stdin = t.stdin ∧
      s'.stdout = t.stdout ∧ s'.program = t.program := by
  unfold advance at h
  cases o <;>
    (injection h with h1; injection h1 with h2 h3; subst h3;
     exact ⟨rfl, rfl, rfl, rfl, rfl⟩)

/-- C9: evaluation errors are atomic — whenever `execute_step` returns an
error (`MemoryOutOfBounds`, `InvalidInstructionPointer` or an I/O error from
the input capability), the instruction pointer, the data pointer, every tape
cell and the output produced so far are exactly as they were before the
call. -/
theorem claim_C9_errors_atomic (s : VMState) (e : EvalError) (s' : VMState)
    (h : execute_step s = Except.error (e, s')) :
    s'.ip = s.ip ∧ s'.data_ptr = s.data_ptr ∧ s'.memory = s.memory ∧
      s'.stdout = s.stdout := by
  rcases hg : s.program.get_step s.ip with _ | ⟨op, tip, eip⟩ <;>
    simp only [execute_step, hg] at h
  · exact Except.noConfusion h
  · unfold advance at h
    repeat' split at h
    all_goals try contradiction
    all_goals
      injection h with h1
      injection h1 with h2 h3
      subst h3
      exact ⟨rfl, rfl, rfl, rfl⟩

/-- C9 witness: a pointer underflow on `<` errors and leaves the state
intact. -/
theorem claim_C9_errors_atomic_witness :
    (∃ s', execute_step (VMState.init { code := [OpCode.DecDataPtr 1], jump_table := [] } [] 4)
        = Except.error (EvalError.MemoryOutOfBounds, s')) ∧
    ((VMState.init { code := [OpCode.DecDataPtr 1], jump_table := [] } [] 4).ip =
        (VMState.init { code := [OpCode.DecDataPtr 1], jump_table := [] } [] 4).ip) := by
  constructor
  · exact ⟨_, by rfl⟩
  · have := claim_C9_errors_atomic
      (VMState.init { code := [OpCode.DecDataPtr 1], jump_table := [] } [] 4)
      EvalError.MemoryOutOfBounds
      (VMState.init { code := [OpCode.DecDataPtr 1], jump_table := [] } [] 4)
      (by rfl)
    exact this.1 ▸ rfl

/-- C6: for every VM state, executing an `IncDataPtr(n)` step fails with
`InvalidInstructionPointer` if and only if `data_ptr + n ≥ memory_size`, and
otherwise sets `data_ptr` to `data_ptr + n`; executing a `DecDataPtr(n)` step
fails with `MemoryOutOfBounds` if and only if `data_ptr < n`, and otherwise
sets `data_ptr` to `data_ptr − n`. -/
theorem claim_C6_pointer_steps (s : VMState) (n : Nat) (st : Step)
    (hst : s.program.get_step s.ip = some st) :
    (st.opcode = OpCode.IncDataPtr n →
      ((∃ s', execute_step s = Except.error (EvalError.InvalidInstructionPointer, s')) ↔
         s.data_ptr + n ≥ s.memory.length) ∧
      (∀ b s', execute_step s = Except.ok (b, s') → s'.data_ptr = s.data_ptr + n)) ∧
    (st.opcode = OpCode.DecDataPtr n →
      ((∃ s', execute_step s = Except.error (EvalError.MemoryOutOfBounds, s')) ↔
         s.data_ptr < n) ∧
      (∀ b s', execute_step s = Except.ok (b, s') → s'.data_ptr = s.data_ptr - n)) := by
  constructor
  · intro hop
    simp only [execute_step, hst, hop]
    by_cases hb : s.data_ptr + n ≥ s.memory.length
    · rw [if_pos hb]
      exact ⟨⟨fun _ => hb, fun _ => ⟨s, rfl⟩⟩,
             fun b s' hok => Except.noConfusion hok⟩
    · rw [if_neg hb]
      constructor
      · exact ⟨fun ⟨s', hs'⟩ => absurd hs' (advance_ne_error _ _ _),
               fun hcond => absurd hcond hb⟩
      · intro b s' hok
        exact (advance_ok_fields _ _ _ _ hok).1
  · intro hop
    simp only [execute_step, hst, hop]
    by_cases hb : s.data_ptr < n
    · rw [if_pos hb]
      exact ⟨⟨fun _ => hb, fun _ => ⟨s, rfl⟩⟩,
             fun b s' hok => Except.noConfusion hok⟩
    · rw [if_neg hb]
      constructor
      · exact ⟨fun ⟨s', hs'⟩ => absurd hs' (advance_ne_error _ _ _),
               fun hcond => absurd hcond hb⟩
      · intro b s' hok
        exact (advance_ok_fields _ _ _ _ hok).1

/-- C6 witness: on the one-instruction program `>` over a 4-cell tape the
`IncDataPtr 1` step succeeds and moves `data_ptr` from 0 to 1, and on `<` the
`DecDataPtr 1` step from `data_ptr = 0` fails with `MemoryOutOfBounds`. -/
theorem claim_C6_pointer_steps_witness :
    ((VMState.init { code := [OpCode.IncDataPtr 1], jump_table := [] } [] 4).program.get_step
        (VMState.init { code := [OpCode.IncDataPtr 1], jump_table := [] } [] 4).ip =
      some ⟨OpCode.IncDataPtr 1, none, none⟩) ∧
    ((∃ s', execute_step (VMState.init { code := [OpCode.IncDataPtr 1], jump_table := [] } [] 4) =
        Except.error (EvalError.InvalidInstructionPointer, s')) ↔
      (VMState.init { code := [OpCode.IncDataPtr 1], jump_table := [] } [] 4).data_ptr + 1 ≥
        (VMState.init { code := [OpCode.IncDataPtr 1], jump_table := [] } [] 4).memory.length) ∧
    (∀ b s', execute_step (VMState.init { code := [OpCode.IncDataPtr 1], jump_table := [] } [] 4) =
        Except.ok (b, s') →
      s'.data_ptr = (VMState.init { code := [OpCode.IncDataPtr 1], jump_table := [] } [] 4).data_ptr + 1) := by
  have h := claim_C6_pointer_steps
    (VMState.init { code := [OpCode.IncDataPtr 1], jump_table := [] } [] 4) 1
    ⟨OpCode.IncDataPtr 1, none, none⟩ (by rfl)
  exact ⟨by rfl, (h.1 rfl).1, (h.1 rfl).2⟩

/-- C8: cell arithmetic is modulo 256 — `IncValue(n)` replaces the current
cell `c` by `(c + n) mod 256` and `DecValue(n)` replaces it by `(c − n) mod
256` (as integers); in particular running `'+'` 256 times on a fresh cell
leaves it zero, and one `'-'` on a fresh cell leaves 255. -/
theorem claim_C8_wrap_semantics (s : VMState) (n : Nat) (st : Step)
    (hst : s.program.get_step s.ip = some st) :
    (st.opcode = OpCode.IncValue n →
      ∀ b s', execute_step s = Except.ok (b, s') →
        s'.memory = s.memory.set s.data_ptr ((s.memory.getD s.data_ptr 0 + n) % 256)) ∧
    (st.opcode = OpCode.DecValue n →
      ∀ b s', execute_step s = Except.ok (b, s') →
        s'.memory = s.memory.set s.data_ptr
          ((((s.memory.getD s.data_ptr 0 : Int) - (n : Int)) % 256).toNat)) ∧
    ((Program.new (List.replicate 256 '+') false).toOption.map
      (fun p => match steps 256 (VMState.init p [] 1) with
        | Except.ok (d, s') => (d, s'.memory)
        | _ => (false, [])) = some (true, [0])) ∧
    ((Program.new ['-'] false).toOption.map
      (fun p => cellAfter (execute_step (VMState.init p [] 1))) = some (some 255)) := by
  refine ⟨?_, ?_, by decide, by decide⟩
  · intro hop b s' hok
    simp only [execute_step, hst, hop] at hok
    have hmem := (advance_ok_fields _ _ _ _ hok).2.1
    rw [hmem]
    show s.memory.set s.data_ptr ((s.memory.getD s.data_ptr 0 + n % 256) % 256) = _
    have hval : (s.memory.getD s.data_ptr 0 + n % 256) % 256
        = (s.memory.getD s.data_ptr 0 + n) % 256 := by omega
    rw [hval]
  · intro hop b s' hok
    simp only [execute_step, hst, hop] at hok
    have hmem := (advance_ok_fields _ _ _ _ hok).2.1
    rw [hmem]
    show s.memory.set s.data_ptr ((s.memory.getD s.data_ptr 0 + (256 - n % 256)) % 256) = _
    have hval : (s.memory.getD s.data_ptr 0 + (256 - n % 256)) % 256
        = (((s.memory.getD s.data_ptr 0 : Int) - (n : Int)) % 256).toNat := by omega
    rw [hval]

/-- C8 witness: on a fresh one-cell tape, `-` leaves 255 in the cell, and
`IncValue 7` on a cell holding 250 leaves `(250 + 7) % 256 = 1`. -/
theorem claim_C8_wrap_semantics_witness :
    ((VMState.init { code := [OpCode.DecValue 1], jump_table := [] } [] 1).program.get_step 0 =
      some ⟨OpCode.DecValue 1, none, none⟩) ∧
    (∀ b s', execute_step (VMState.init { code := [OpCode.DecValue 1], jump_table := [] } [] 1) =
        Except.ok (b, s') → s'.memory = [255]) ∧
    cellAfter (execute_step (VMState.init { code := [OpCode.DecValue 1], jump_table := [] } [] 1)) =
      some 255 := by
  have h := claim_C8_wrap_semantics
    (VMState.init { code := [OpCode.DecValue 1], jump_table := [] } [] 1) 1
    ⟨OpCode.DecValue 1, none, none⟩ (by rfl)
  refine ⟨by rfl, ?_, by rfl⟩
  intro b s' hok
  have := h.2.1 rfl b s' hok
  rw [this]
  rfl

/-- C1 (code bug): `enable_profiler` writes `vec![0, code_len]` — the
two-element vector `[0, code_len]` — instead of `vec![0; code_len]`, so it
does not allocate one counter per original primitive opcode.  Consequently on
`"+++"` the profiler run panics indexing `profile_data[2]` out of bounds,
and on `"+"` it finishes with `profile_data = [1, 1]` whose sum 2 differs
from the single primitive opcode execution (and whose length 2 differs from
the primitive length 1). -/
theorem claim_C1_profiler_allocation_bug :
    ((Program.new ['+', '+', '+'] false).toOption.map
      (fun p => profiler_run 10 (VMState.init p [] 8) (enable_profiler p.code)))
      = some (some ProfOut.panic) ∧
    ((Program.new ['+'] false).toOption.map
      (fun p => profileOf (profiler_run 10 (VMState.init p [] 8) (enable_profiler p.code))))
      = some (some [1, 1]) ∧
    ([1, 1].sum ≠ 1) ∧
    ((Program.new ['+'] false).toOption.map
      (fun p => (enable_profiler p.code).profile_data.length)) = some 2 := by
  exact ⟨by decide, by decide, by decide, by decide⟩

/-- C3 counterexample: lowering `"+>+<[->>+<<]"` with `rle = false` does not
yield `Program([IncValue(1), IncDataPtr(1), IncValue(1), DecDataPtr(1),
AddTo(2)])` — the loop body is six unit nodes, which no rewrite pattern
matches, so the loop survives. -/
theorem claim_C3_counterexample :
    ((Program.new ("+>+<[->>+<<]").toList false).toOption.bind
        (fun p => AST.new p 30)
      = some (AST.Program [AST.IncValue 1, AST.IncDataPtr 1, AST.IncValue 1,
          AST.DecDataPtr 1,
          AST.Loop [AST.DecValue 1, AST.IncDataPtr 1, AST.IncDataPtr 1,
            AST.IncValue 1, AST.DecDataPtr 1, AST.DecDataPtr 1]])) ∧
    ¬ ((Program.new ("+>+<[->>+<<]").toList false).toOption.bind
        (fun p => AST.new p 30)
      = some (AST.Program [AST.IncValue 1, AST.IncDataPtr 1, AST.IncValue 1,
          AST.DecDataPtr 1, AST.AddTo 2])) := by
  refine ⟨by rfl, ?_⟩
  intro h
  rw [show (Program.new ("+>+<[->>+<<]").toList false).toOption.bind
        (fun p => AST.new p 30)
      = some (AST.Program [AST.IncValue 1, AST.IncDataPtr 1, AST.IncValue 1,
          AST.DecDataPtr 1,
          AST.Loop [AST.DecValue 1, AST.IncDataPtr 1, AST.IncDataPtr 1,
            AST.IncValue 1, AST.DecDataPtr 1, AST.DecDataPtr 1]]) from rfl] at h
  simp at h

/-- C3 (amended): with `rle = true`, lowering `"+>+<[->>+<<]"` with
optimisation yields exactly `Program([IncValue(1), IncDataPtr(1),
IncValue(1), DecDataPtr(1), AddTo(2)])`; in general a `Loop` whose body is
dec-current / move-right-by-`k` / inc / move-left-by-`k` is rewritten to
`AddTo(+k)`, and a loop body matching none of the five listed patterns is
left as a `Loop` (no other rewrites are performed). -/
theorem claim_C3_lowering_and_rewrites :
    ((Program.new ("+>+<[->>+<<]").toList true).toOption.bind
        (fun p => AST.new p 30)
      = some (AST.Program [AST.IncValue 1, AST.IncDataPtr 1, AST.IncValue 1,
          AST.DecDataPtr 1, AST.AddTo 2])) ∧
    (∀ k : Nat,
      AST.optimize (AST.Loop [AST.DecValue 1, AST.IncDataPtr k, AST.IncValue 1,
        AST.DecDataPtr k]) = AST.AddTo (k : Int)) ∧
    (∀ cb : List AST, ¬ FivePatternShape (optimizeList cb) →
      AST.optimize (AST.Loop cb) = AST.Loop (optimizeList cb)) := by
  refine ⟨by rfl, ?_, ?_⟩
  · intro k
    simp [AST.optimize, optimizeList, rewriteLoop]
  · intro cb hnot
    show rewriteLoop (optimizeList cb) = AST.Loop (optimizeList cb)
    generalize optimizeList cb = l at hnot ⊢
    unfold rewriteLoop
    split
    · exact absurd (Or.inl ⟨_, rfl⟩) hnot
    · exact absurd (Or.inr (Or.inl ⟨_, rfl⟩)) hnot
    · split
      · next a b hab =>
          subst hab
          exact absurd (Or.inr (Or.inr (Or.inl ⟨_, rfl⟩))) hnot
      · rfl
    · split
      · next a b hab =>
          subst hab
          exact absurd (Or.inr (Or.inr (Or.inr (Or.inl ⟨_, rfl⟩)))) hnot
      · rfl
    · split
      · next a b hab =>
          subst hab
          exact absurd (Or.inr (Or.inr (Or.inr (Or.inr (Or.inl ⟨_, rfl⟩))))) hnot
      · rfl
    · split
      · next a b hab =>
          subst hab
          exact absurd (Or.inr (Or.inr (Or.inr (Or.inr (Or.inr ⟨_, rfl⟩))))) hnot
      · rfl
    · rfl

/-- C3 witness: the no-rewrite clause applied to the empty loop body, and
the copy-loop rewrite at `k = 5`. -/
theorem claim_C3_lowering_and_rewrites_witness :
    (¬ FivePatternShape (optimizeList [])) ∧
    AST.optimize (AST.Loop []) = AST.Loop (optimizeList []) ∧
    AST.optimize (AST.Loop [AST.DecValue 1, AST.IncDataPtr 5, AST.IncValue 1,
      AST.DecDataPtr 5]) = AST.AddTo 5 := by
  have hnot : ¬ FivePatternShape (optimizeList []) := by
    rintro (⟨n, h⟩ | ⟨n, h⟩ | ⟨k, h⟩ | ⟨k, h⟩ | ⟨k, h⟩ | ⟨k, h⟩) <;>
      exact List.noConfusion h
  exact ⟨hnot, claim_C3_lowering_and_rewrites.2.2 [] hnot,
    claim_C3_lowering_and_rewrites.2.1 5⟩

end BF
